import Mathlib

/-!
Verification of `moodycamel::ReaderWriterQueue` (src/readerwriterqueue.h),
a single-producer single-consumer queue built as a circular linked list of
circular-buffer blocks.

The embedding is sequential: operations are modelled as pure state
transformers on a `Queue` value.  Heap blocks are kept in an arena
(`Queue.blocks`, a list indexed by allocation order); the C++ `Block*`
pointers become indices into that arena.  `size_t` index arithmetic uses
`&&&` with the block's `sizeMask`, exactly as the source does; blocks of
power-of-two size make this equal to `%`.  A slot of a block's `data`
array holds `some v` while an element is constructed in it and `none`
after its destructor has run (or before any construction).
-/

namespace RWQ

/-- One block of the queue: a fixed circular buffer.  Mirrors
`ReaderWriterQueue<T>::Block`: `front` (next slot to read), `tail` (next
slot to write), `next` (pointer to the next block in the ring, here an
arena index), `data` (the `size` raw slots) and the immutable `size`. -/
structure Block (α : Type) where
  front : Nat
  tail : Nat
  next : Nat
  data : List (Option α)
  size : Nat
deriving Repr, DecidableEq

/-- `Block::sizeMask()`, i.e. `size - 1`. -/
def Block.sizeMask {α : Type} (b : Block α) : Nat := b.size - 1

/-- The `Block(size)` constructor: `front = 0`, `tail = 0`, `next`
null (the source sets `next` at both creation sites right after
construction; the model stores the index it is about to be given),
uninitialized storage of `size` slots. -/
def mkBlock (α : Type) (size : Nat) (next : Nat) : Block α :=
  { front := 0, tail := 0, next := next, data := List.replicate size none, size := size }

/-- The whole queue: the arena of blocks ever allocated (never freed
before destruction), the consumer's block pointer `frontBlock`, the
producer's block pointer `tailBlock`, and the producer-private
`largestBlockSize`. -/
structure Queue (α : Type) where
  blocks : List (Block α)
  frontBlock : Nat
  tailBlock : Nat
  largestBlockSize : Nat
deriving Repr, DecidableEq

/-- Dereference an arena index (a `Block*`). Out-of-range indices give a
junk block; reachable states never produce them. -/
def Queue.getBlock {α : Type} (q : Queue α) (i : Nat) : Block α :=
  (q.blocks[i]?).getD { front := 0, tail := 0, next := 0, data := [], size := 0 }

/-- Write back a block at an arena index. -/
def Queue.setBlock {α : Type} (q : Queue α) (i : Nat) (b : Block α) : Queue α :=
  { q with blocks := q.blocks.set i b }

/-- `ReaderWriterQueue::ceilToPow2`, the Stanford bit hack, on a 64-bit
`size_t`: decrement (with wraparound), smear the highest set bit down
with shifts 1,2,4,8,16,32, increment (with wraparound). -/
def ceilToPow2 (x : Nat) : Nat :=
  let x1 := (x + (2 ^ 64 - 1)) % 2 ^ 64
  let x2 := x1 ||| (x1 >>> 1)
  let x3 := x2 ||| (x2 >>> 2)
  let x4 := x3 ||| (x3 >>> 4)
  let x5 := x4 ||| (x4 >>> 8)
  let x6 := x5 ||| (x5 >>> 16)
  let x7 := x6 ||| (x6 >>> 32)
  (x7 + 1) % 2 ^ 64

/-- The `ReaderWriterQueue(maxSize)` constructor (default argument 15):
one block of size `ceilToPow2 (maxSize + 1)` whose `next` points to
itself, `frontBlock = tailBlock = firstBlock`, `largestBlockSize` = that
size. -/
def newQueue (α : Type) (maxSize : Nat := 15) : Queue α :=
  let lbs := ceilToPow2 (maxSize + 1)
  { blocks := [mkBlock α lbs 0], frontBlock := 0, tailBlock := 0, largestBlockSize := lbs }

/-- `inner_enqueue<canAlloc>(element)`.  Returns the source's boolean
result together with the post state.  The three branches mirror the
source: Case A (room in the tail block), Case B (tail block full, its
`next` is not `frontBlock`), Case C (grow, only when `canAlloc`),
otherwise fail. -/
def inner_enqueue {α : Type} (canAlloc : Bool) (q : Queue α) (element : α) :
    Bool × Queue α :=
  let tailBlock_ := q.tailBlock
  let tb := q.getBlock tailBlock_
  let blockFront := tb.front
  let blockTail := tb.tail
  let nextBlockTail := (blockTail + 1) &&& tb.sizeMask
  if nextBlockTail ≠ blockFront then
    -- This block has room for at least one more element
    let tb2 := { tb with data := tb.data.set blockTail (some element), tail := nextBlockTail }
    (true, q.setBlock tailBlock_ tb2)
  else if tb.next ≠ q.frontBlock then
    -- tailBlock is full, but there is a free block ahead, use it
    let tailBlockNext := tb.next
    let nb := q.getBlock tailBlockNext
    let nextBlockTail2 := nb.tail
    let nb2 := { nb with
      data := (nb.data.set nextBlockTail2 (some element)),
      tail := ((nextBlockTail2 + 1) &&& nb.sizeMask) }
    (true, { q.setBlock tailBlockNext nb2 with tailBlock := tailBlockNext })
  else if canAlloc then
    -- tailBlock is full and there is no free block ahead; create a new block
    let newSize := q.largestBlockSize * 2
    let newIdx := q.blocks.length
    let newBlock : Block α := {
      front := 0, tail := 1, next := tb.next,
      data := ((List.replicate newSize (none : Option α)).set 0 (some element)),
      size := newSize }
    let tb2 := { tb with next := newIdx }
    (true, {
      blocks := ((q.blocks.set tailBlock_ tb2) ++ [newBlock]),
      frontBlock := q.frontBlock, tailBlock := newIdx,
      largestBlockSize := newSize })
  else
    (false, q)

/-- `try_enqueue`: `inner_enqueue<CannotAlloc>`. -/
def try_enqueue {α : Type} (q : Queue α) (element : α) : Bool × Queue α :=
  inner_enqueue false q element

/-- `enqueue`: `inner_enqueue<CanAlloc>`, result discarded. -/
def enqueue {α : Type} (q : Queue α) (element : α) : Queue α :=
  (inner_enqueue true q element).2

/-- `try_dequeue(result)`.  First component is the returned boolean,
second the value move-assigned into `result` (`none` when the call
returned false and left `result` alone), third the post state. -/
def try_dequeue {α : Type} (q : Queue α) : Bool × Option α × Queue α :=
  let tailBlockAtStart := q.tailBlock
  let frontBlock_ := q.frontBlock
  let fb := q.getBlock frontBlock_
  let blockTail := fb.tail
  let blockFront := fb.front
  if blockFront ≠ blockTail then
    -- Front block not empty, dequeue from here
    let element := fb.data.getD blockFront none
    let blockFront2 := (blockFront + 1) &&& fb.sizeMask
    let fb2 := { fb with front := blockFront2, data := fb.data.set blockFront none }
    (true, element, q.setBlock frontBlock_ fb2)
  else if frontBlock_ ≠ tailBlockAtStart then
    -- Front block is empty but there is another block ahead, advance to it
    let nextBlock := fb.next
    let nb := q.getBlock nextBlock
    let nextBlockFront := nb.front
    let element := nb.data.getD nextBlockFront none
    let nextBlockFront2 := (nextBlockFront + 1) &&& nb.sizeMask
    let nb2 := { nb with front := nextBlockFront2, data := nb.data.set nextBlockFront none }
    (true, element, { q.setBlock nextBlock nb2 with frontBlock := nextBlock })
  else
    -- No elements in current block and no other block to advance to
    (false, none, q)

/-- The element-destruction loop of `~ReaderWriterQueue` inside one
block: `for (i = blockFront; i != blockTail; i = (i + 1) & sizeMask())`,
collecting the slots whose elements get destroyed, in order.  Fueled by
`b.size`, which bounds the iteration count on well-formed blocks. -/
def collectLoop {α : Type} (b : Block α) : Nat → Nat → List (Option α)
  | 0, _ => []
  | fuel + 1, i =>
    if i = b.tail then []
    else b.data.getD i none :: collectLoop b fuel ((i + 1) &&& b.sizeMask)

/-- The slots destroyed inside one block by the destructor walk. -/
def Block.destroyList {α : Type} (b : Block α) : List (Option α) :=
  collectLoop b b.size b.front

/-- The destructor's do-while walk: starting at `block`, destroy the
block's resident elements and free it, advance to `block->next`, and
stop as soon as the advanced pointer equals the `tailBlock` snapshot
taken on entry.  Returns the destroyed elements (in destruction order)
and the freed block indices.  Fueled by the arena size, which bounds the
walk on well-formed rings. -/
def destructWalk {α : Type} (q : Queue α) (tailBlockSnap : Nat) :
    Nat → Nat → List (Option α) × List Nat
  | 0, _ => ([], [])
  | fuel + 1, block =>
    let b := q.getBlock block
    let destroyed := b.destroyList
    let nextBlock := b.next
    if nextBlock = tailBlockSnap then (destroyed, [block])
    else
      let rest := destructWalk q tailBlockSnap fuel nextBlock
      (destroyed ++ rest.1, block :: rest.2)

/-- All elements destroyed by `~ReaderWriterQueue`, in order. -/
def destructorDestroyed {α : Type} (q : Queue α) : List (Option α) :=
  (destructWalk q q.tailBlock q.blocks.length q.frontBlock).1

/-- All blocks freed by `~ReaderWriterQueue`, in order. -/
def destructorFreed {α : Type} (q : Queue α) : List Nat :=
  (destructWalk q q.tailBlock q.blocks.length q.frontBlock).2

/-- Modelled from the spec: `peek` is not in src/readerwriterqueue.h
(only src/tests/unittests/unittests.cpp calls it).  Per spec section
"peek and pop": follow steps 1-2 of dequeue; in Case A return a pointer
to slot `blockFront` without advancing; in Case B advance `frontBlock`
to `next` and return a pointer to `next`'s slot `next.front`; in Case C
return null.  The model returns the pointed-to value and the post
state. -/
def peek {α : Type} (q : Queue α) : Option α × Queue α :=
  let tailBlockAtStart := q.tailBlock
  let frontBlock_ := q.frontBlock
  let fb := q.getBlock frontBlock_
  if fb.front ≠ fb.tail then
    (fb.data.getD fb.front none, q)
  else if frontBlock_ ≠ tailBlockAtStart then
    let nextBlock := fb.next
    let nb := q.getBlock nextBlock
    (nb.data.getD nb.front none, { q with frontBlock := nextBlock })
  else
    (none, q)

/-- Modelled from the spec: `pop` is not in src/readerwriterqueue.h.
Per the spec it is equivalent to `try_dequeue` with the value discarded
(still running the destructor). -/
def pop {α : Type} (q : Queue α) : Bool × Queue α :=
  let r := try_dequeue q
  (r.1, r.2.2)

/-! ### Abstraction: the logical contents of the queue -/

/-- Number of live elements in a block: `(tail - front) mod size`. -/
def Block.count {α : Type} (b : Block α) : Nat :=
  (b.tail + b.size - b.front) % b.size

/-- The live slots of a block, oldest first: slots `front, front+1, ...,
tail-1` (mod `size`). -/
def Block.contentsO {α : Type} (b : Block α) : List (Option α) :=
  (List.range b.count).map (fun k => b.data.getD ((b.front + k) % b.size) none)

/-- The ring segment from `start` to `tailBlock` inclusive, following
`next`; fueled. -/
def pathFrom {α : Type} (q : Queue α) : Nat → Nat → List Nat
  | 0, _ => []
  | fuel + 1, i =>
    if i = q.tailBlock then [i] else i :: pathFrom q fuel (q.getBlock i).next

/-- The ring segment from `frontBlock` to `tailBlock` inclusive. -/
def path {α : Type} (q : Queue α) : List Nat :=
  pathFrom q q.blocks.length q.frontBlock

/-- The logical contents of the queue, oldest first, as option slots. -/
def toListO {α : Type} (q : Queue α) : List (Option α) :=
  (path q).flatMap (fun i => (q.getBlock i).contentsO)

/-! ### Operation sequences -/

/-- One producer/consumer operation. -/
inductive Op (α : Type) where
  | enq : α → Op α
  | tryEnq : α → Op α
  | tryDeq : Op α
deriving Repr, DecidableEq

/-- Apply one operation to the queue state. -/
def step {α : Type} (q : Queue α) : Op α → Queue α
  | .enq v => (inner_enqueue true q v).2
  | .tryEnq v => (inner_enqueue false q v).2
  | .tryDeq => (try_dequeue q).2.2

/-- Run a whole operation sequence. -/
def run {α : Type} (q : Queue α) : List (Op α) → Queue α
  | [] => q
  | op :: ops => run (step q op) ops

/-- The values successfully enqueued (first component, in order) and the
results of the successful `try_dequeue` calls (second component, in
order) along an operation sequence. -/
def traces {α : Type} (q : Queue α) : List (Op α) → List α × List (Option α)
  | [] => ([], [])
  | .enq v :: ops =>
    let r := inner_enqueue true q v
    let t := traces r.2 ops
    (if r.1 then v :: t.1 else t.1, t.2)
  | .tryEnq v :: ops =>
    let r := inner_enqueue false q v
    let t := traces r.2 ops
    (if r.1 then v :: t.1 else t.1, t.2)
  | .tryDeq :: ops =>
    let r := try_dequeue q
    let t := traces r.2.2 ops
    (t.1, if r.1 then r.2.1 :: t.2 else t.2)

/-! ### Invariants and reachability -/

/-- Structural well-formedness of one block: the storage has exactly
`size` slots, the size is a power of two at least 2, and both indices
are in range. -/
def Block.wfb {α : Type} (b : Block α) : Prop :=
  b.data.length = b.size ∧ (∃ k, 0 < k ∧ b.size = 2 ^ k) ∧ b.front < b.size ∧ b.tail < b.size

/-- A block is completely full when `front = (tail + 1) mod size` (one
slot is always wasted). -/
def Block.isFull {α : Type} (b : Block α) : Prop :=
  b.front = (b.tail + 1) % b.size

/-- The successor relation of the ring: block `i` points at block `j`. -/
def nextRel {α : Type} (q : Queue α) (i j : Nat) : Prop :=
  (q.getBlock i).next = j

/-- The master invariant of reachable queue states.  `ps` is the ring
segment from `frontBlock` to `tailBlock` inclusive (in ring order), `es`
the rest of the ring (the drained blocks sitting between `tailBlock` and
`frontBlock`); together they enumerate the whole arena exactly once, in
ring order, and the ring closes back onto `frontBlock`. -/
structure InvOn {α : Type} (q : Queue α) (ps es : List Nat) : Prop where
  head_ps : ps.head? = some q.frontBlock
  last_ps : ps.getLast? = some q.tailBlock
  nodup : (ps ++ es).Nodup
  mem_iff : ∀ i, i ∈ ps ++ es ↔ i < q.blocks.length
  chain : List.Chain' (nextRel q) (ps ++ es)
  cycle : ∀ x ∈ (ps ++ es).getLast?, nextRel q x q.frontBlock
  wf : ∀ i, i < q.blocks.length → (q.getBlock i).wfb
  empties : ∀ i ∈ es, (q.getBlock i).front = (q.getBlock i).tail
  mids : ∀ j x, 0 < j → j + 1 < ps.length → ps[j]? = some x → (q.getBlock x).isFull
  tail_ne : 1 < ps.length →
    (q.getBlock q.tailBlock).front ≠ (q.getBlock q.tailBlock).tail
  lbs_pow : ∃ k, 0 < k ∧ q.largestBlockSize = 2 ^ k
  filled : ∀ o ∈ toListO q, o.isSome

/-- The master invariant holds for some decomposition of the ring. -/
def Inv {α : Type} (q : Queue α) : Prop :=
  ∃ ps es : List Nat, InvOn q ps es

/-- States reachable from a freshly constructed queue by enqueue,
try_enqueue and try_dequeue.  The side conditions on `maxSize` mirror
the source's `assert(maxSize > 0)` and the representability of
`ceilToPow2 (maxSize + 1)` in `size_t`. -/
inductive Reachable {α : Type} : Queue α → Prop where
  | init : ∀ maxSize : Nat, 1 ≤ maxSize → maxSize + 1 ≤ 2 ^ 63 →
      Reachable (newQueue α maxSize)
  | enq : ∀ (q : Queue α) (v : α), Reachable q → Reachable (inner_enqueue true q v).2
  | tryEnq : ∀ (q : Queue α) (v : α), Reachable q → Reachable (inner_enqueue false q v).2
  | deq : ∀ q : Queue α, Reachable q → Reachable (try_dequeue q).2.2

/-- The ring-shape portion of the invariant, as claimed by the spec:
walking `next` from `frontBlock` reaches `tailBlock` (the segment `ps`),
continuing from `tailBlock` eventually wraps back to `frontBlock` (the
segment `es` plus the closing edge), and every block strictly between
`frontBlock` and `tailBlock` in ring order is completely full. -/
def RingOk {α : Type} (q : Queue α) : Prop :=
  ∃ ps es : List Nat,
    ps.head? = some q.frontBlock ∧ ps.getLast? = some q.tailBlock ∧
    List.Chain' (nextRel q) (ps ++ es) ∧
    (∀ x ∈ (ps ++ es).getLast?, nextRel q x q.frontBlock) ∧
    (∀ j x, 0 < j → j + 1 < ps.length → ps[j]? = some x → (q.getBlock x).isFull)

/-- The literal scenario of the spec: construct with capacity hint 100,
enqueue 0..99, then try_dequeue 100 times. -/
def enq100deq100 : List (Op Nat) :=
  (List.range 100).map Op.enq ++ List.replicate 100 Op.tryDeq

/-- A queue of capacity 1 holding two elements: the second enqueue grew a
new block, so `frontBlock` and `tailBlock` differ. -/
def exampleQ5 : Queue Nat := run (newQueue Nat 1) [Op.enq 10, Op.enq 20]

/-- Operations leading to a full tail block whose ring successor is a
recycled (drained) block with nonzero `front`/`tail`: the next enqueue
takes Case B and constructs at a nonzero slot. -/
def exampleOpsC6 : List (Op Nat) :=
  [Op.enq 1, Op.enq 2, Op.tryDeq, Op.tryDeq, Op.enq 3, Op.enq 4, Op.enq 5]

/-- The Case B state reached by `exampleOpsC6`. -/
def exampleQ6 : Queue Nat := run (newQueue Nat 1) exampleOpsC6

/-! ### ceilToPow2 computes the least power of two bound -/

/-- Each or-shift smear stage doubles the window of source bits that can
set a result bit. -/
theorem orShift_testBit {y a n m : Nat}
    (h : ∀ i, a.testBit i = true ↔ ∃ d, d < n ∧ y.testBit (i + d) = true)
    (hm : m = n + n) :
    ∀ i, (a ||| (a >>> n)).testBit i = true ↔ ∃ d, d < m ∧ y.testBit (i + d) = true := by
  intro i
  rw [Nat.testBit_or, Bool.or_eq_true, Nat.testBit_shiftRight, h i, h (n + i)]
  constructor
  · rintro (⟨d, hd, hb⟩ | ⟨d, hd, hb⟩)
    · exact ⟨d, by omega, hb⟩
    · exact ⟨n + d, by omega, by rw [show i + (n + d) = n + i + d by omega]; exact hb⟩
  · rintro ⟨d, hd, hb⟩
    by_cases hdn : d < n
    · exact Or.inl ⟨d, hdn, hb⟩
    · exact Or.inr ⟨d - n, by omega, by rw [show n + i + (d - n) = i + d by omega]; exact hb⟩

theorem ceilToPow2_eq_pow (x : Nat) (h1 : 1 ≤ x) (h2 : x ≤ 2 ^ 63) :
    ceilToPow2 x = 2 ^ Nat.size (x - 1) := by
  have hy : x - 1 < 2 ^ 64 := by
    have h : (2 : Nat) ^ 63 < 2 ^ 64 := by norm_num
    omega
  have hy63 : x - 1 < 2 ^ 63 := by omega
  simp only [ceilToPow2]
  have hx1 : (x + (2 ^ 64 - 1)) % 2 ^ 64 = x - 1 := by
    have h : x + (2 ^ 64 - 1) = (x - 1) + 1 * 2 ^ 64 := by omega
    rw [h, Nat.add_mul_mod_self_right, Nat.mod_eq_of_lt hy]
  rw [hx1]
  set y := x - 1 with hy_def
  have base : ∀ i, y.testBit i = true ↔ ∃ d, d < 1 ∧ y.testBit (i + d) = true := by
    intro i
    constructor
    · intro hb; exact ⟨0, Nat.zero_lt_one, by simpa using hb⟩
    · rintro ⟨d, hd, hb⟩
      have hd0 : d = 0 := by omega
      subst hd0; simpa using hb
  have s1 := orShift_testBit (y := y) base (rfl : (2 : Nat) = 1 + 1)
  have s2 := orShift_testBit (y := y) s1 (rfl : (4 : Nat) = 2 + 2)
  have s3 := orShift_testBit (y := y) s2 (rfl : (8 : Nat) = 4 + 4)
  have s4 := orShift_testBit (y := y) s3 (rfl : (16 : Nat) = 8 + 8)
  have s5 := orShift_testBit (y := y) s4 (rfl : (32 : Nat) = 16 + 16)
  have s6 := orShift_testBit (y := y) s5 (rfl : (64 : Nat) = 32 + 32)
  set a1 := y ||| y >>> 1 with ha1
  set a2 := a1 ||| a1 >>> 2 with ha2
  set a3 := a2 ||| a2 >>> 4 with ha3
  set a4 := a3 ||| a3 >>> 8 with ha4
  set a5 := a4 ||| a4 >>> 16 with ha5
  set a6 := a5 ||| a5 >>> 32 with ha6
  have hiff : ∀ i, (∃ d, d < 64 ∧ y.testBit (i + d) = true) ↔ i < Nat.size y := by
    intro i
    constructor
    · rintro ⟨d, _, hb⟩
      exact Nat.lt_of_le_of_lt (Nat.le_add_right i d)
        (Nat.lt_size.mpr (Nat.testBit_implies_ge hb))
    · intro hi
      obtain ⟨j, hji, hj⟩ := Nat.ge_two_pow_implies_high_bit_true (Nat.lt_size.mp hi)
      have hj64 : j < 64 := by
        by_contra hge
        have hlt : y < 2 ^ j :=
          Nat.lt_of_lt_of_le hy (Nat.pow_le_pow_right (by norm_num) (by omega))
        rw [Nat.testBit_lt_two_pow hlt] at hj
        cases hj
      exact ⟨j - i, by omega, by rw [show i + (j - i) = j by omega]; exact hj⟩
  have h7 : a6 = 2 ^ Nat.size y - 1 := by
    apply Nat.eq_of_testBit_eq
    intro i
    rw [Nat.testBit_two_pow_sub_one]
    have hx := (s6 i).trans (hiff i)
    by_cases hlt : i < Nat.size y
    · simp [hlt, hx.mpr hlt]
    · have hb : a6.testBit i = false := by
        rcases hbv : a6.testBit i with _ | _
        · rfl
        · exact absurd (hx.mp hbv) hlt
      simp [hb, hlt]
  rw [h7]
  have hs : Nat.size y ≤ 63 := Nat.size_le.mpr hy63
  have hpos : 0 < 2 ^ Nat.size y := Nat.two_pow_pos _
  have hlt64 : 2 ^ Nat.size y < 2 ^ 64 := by
    calc 2 ^ Nat.size y ≤ 2 ^ 63 := Nat.pow_le_pow_right (by norm_num) hs
    _ < 2 ^ 64 := by norm_num
  have hstep : 2 ^ Nat.size y - 1 + 1 = 2 ^ Nat.size y := by omega
  rw [hstep, Nat.mod_eq_of_lt hlt64]

/-- `ceilToPow2 (maxSize + 1)` is a power of two with positive exponent,
at least `maxSize + 1`, and the least such power of two. -/
theorem ceilToPow2_least (m : Nat) (h1 : 1 ≤ m) (h2 : m + 1 ≤ 2 ^ 63) :
    (∃ k, 0 < k ∧ ceilToPow2 (m + 1) = 2 ^ k) ∧
    m + 1 ≤ ceilToPow2 (m + 1) ∧
    (∀ j, m + 1 ≤ 2 ^ j → ceilToPow2 (m + 1) ≤ 2 ^ j) := by
  have he : ceilToPow2 (m + 1) = 2 ^ Nat.size m := by
    have := ceilToPow2_eq_pow (m + 1) (by omega) h2
    simpa using this
  refine ⟨⟨Nat.size m, ?_, he⟩, ?_, ?_⟩
  · exact Nat.size_pos.mpr h1
  · rw [he]; exact Nat.lt_size_self m
  · intro j hj
    rw [he]
    exact Nat.pow_le_pow_right (by norm_num) (Nat.size_le.mpr (by omega))

/-! ### Arithmetic and slot bookkeeping inside one block -/

theorem mod_two_cases (a n : Nat) (h : a < 2 * n) :
    a % n = if n ≤ a then a - n else a := by
  split
  · next hle =>
    rw [Nat.mod_eq_sub_mod hle]
    exact Nat.mod_eq_of_lt (by omega)
  · next hlt => exact Nat.mod_eq_of_lt (by omega)

/-- On power-of-two blocks the source's masked increment is a modulus. -/
theorem and_sizeMask {α : Type} (b : Block α) (k : Nat) (hk : b.size = 2 ^ k) (i : Nat) :
    i &&& b.sizeMask = i % b.size := by
  rw [Block.sizeMask, hk]
  exact Nat.and_pow_two_sub_one_eq_mod i k

theorem getD_set_ne {α : Type} (l : List α) (i j : Nat) (a d : α) (h : i ≠ j) :
    (l.set i a).getD j d = l.getD j d := by
  simp [List.getD_eq_getElem?_getD, List.getElem?_set_ne h]

theorem getD_set_self {α : Type} (l : List α) (i : Nat) (a d : α) (h : i < l.length) :
    (l.set i a).getD i d = a := by
  simp [List.getD_eq_getElem?_getD, List.getElem?_set_self h]

theorem slot_ne (front size j1 j2 : Nat) (h1 : j1 < size) (h2 : j2 < size) (hne : j1 ≠ j2) :
    (front + j1) % size ≠ (front + j2) % size := by
  intro h
  have h' : front + j1 ≡ front + j2 [MOD size] := h
  have h2' : j1 ≡ j2 [MOD size] := Nat.ModEq.add_left_cancel' front h'
  rw [Nat.ModEq, Nat.mod_eq_of_lt h1, Nat.mod_eq_of_lt h2] at h2'
  exact hne h2'

theorem Block.size_pos {α : Type} (b : Block α) (h : b.wfb) : 0 < b.size := by
  obtain ⟨-, ⟨k, -, hks⟩, -, -⟩ := h
  rw [hks]; exact Nat.two_pow_pos k

theorem Block.size_ge_two {α : Type} (b : Block α) (h : b.wfb) : 2 ≤ b.size := by
  obtain ⟨-, ⟨k, hk0, hks⟩, -, -⟩ := h
  rw [hks]
  calc 2 = 2 ^ 1 := by norm_num
  _ ≤ 2 ^ k := Nat.pow_le_pow_right (by norm_num) hk0

theorem Block.count_closed {α : Type} (b : Block α) (hf : b.front < b.size)
    (ht : b.tail < b.size) :
    b.count = if b.front ≤ b.tail then b.tail - b.front else b.tail + b.size - b.front := by
  unfold Block.count
  rw [mod_two_cases _ _ (by omega)]
  rcases le_or_lt b.front b.tail with hle | hlt
  · rw [if_pos (by omega), if_pos hle]; omega
  · rw [if_neg (by omega), if_neg (by omega)]

theorem Block.count_lt {α : Type} (b : Block α) (h : b.wfb) : b.count < b.size :=
  Nat.mod_lt _ (b.size_pos h)

theorem Block.count_eq_zero_iff {α : Type} (b : Block α) (h : b.wfb) :
    b.count = 0 ↔ b.front = b.tail := by
  obtain ⟨-, -, hf, ht⟩ := h
  rw [b.count_closed hf ht]
  split <;> omega

theorem Block.isFull_iff_count {α : Type} (b : Block α) (h : b.wfb) :
    b.isFull ↔ b.count = b.size - 1 := by
  obtain ⟨-, -, hf, ht⟩ := (⟨h.1, h.2.1, h.2.2.1, h.2.2.2⟩ : _ ∧ _ ∧ _ ∧ _)
  rw [Block.isFull, b.count_closed hf ht,
    mod_two_cases (b.tail + 1) b.size (by omega)]
  split <;> split <;> omega

theorem Block.front_add_count {α : Type} (b : Block α) (hf : b.front < b.size)
    (ht : b.tail < b.size) : (b.front + b.count) % b.size = b.tail := by
  rw [b.count_closed hf ht]
  rcases le_or_lt b.front b.tail with hle | hlt
  · rw [if_pos hle, show b.front + (b.tail - b.front) = b.tail by omega]
    exact Nat.mod_eq_of_lt ht
  · rw [if_neg (by omega),
      show b.front + (b.tail + b.size - b.front) = b.tail + b.size by omega,
      Nat.add_mod_right]
    exact Nat.mod_eq_of_lt ht

theorem Block.length_contentsO {α : Type} (b : Block α) :
    b.contentsO.length = b.count := by
  simp [Block.contentsO]

theorem Block.contentsO_empty {α : Type} (b : Block α) (h : b.front = b.tail) :
    b.contentsO = [] := by
  have hc : b.count = 0 := by
    unfold Block.count
    rw [h, show b.tail + b.size - b.tail = b.size by omega, Nat.mod_self]
  simp [Block.contentsO, hc]

theorem Block.contentsO_ne_nil {α : Type} (b : Block α) (h : b.wfb)
    (hne : b.front ≠ b.tail) : b.contentsO ≠ [] := by
  intro hc
  have := b.length_contentsO
  rw [hc] at this
  exact hne ((b.count_eq_zero_iff h).mp this.symm)

/-- Writing the new element at slot `tail` and bumping `tail` appends
the element to the block contents. -/
theorem Block.contentsO_enq {α : Type} (b : Block α) (ov : Option α) (h : b.wfb)
    (hnf : (b.tail + 1) % b.size ≠ b.front) :
    Block.contentsO { b with data := b.data.set b.tail ov, tail := (b.tail + 1) % b.size }
      = b.contentsO ++ [ov] := by
  obtain ⟨hlen, ⟨k, hk0, hks⟩, hf, ht⟩ := h
  have hsz : 0 < b.size := by rw [hks]; exact Nat.two_pow_pos k
  set b2 : Block α := { b with data := b.data.set b.tail ov, tail := (b.tail + 1) % b.size }
    with hb2
  have hf2 : b2.front < b2.size := hf
  have ht2 : b2.tail < b2.size := Nat.mod_lt _ hsz
  have hcount : b2.count = b.count + 1 := by
    rw [Block.count_closed b2 hf2 ht2, Block.count_closed b hf ht]
    show (if b.front ≤ (b.tail + 1) % b.size then (b.tail + 1) % b.size - b.front
      else (b.tail + 1) % b.size + b.size - b.front) = _
    rw [mod_two_cases (b.tail + 1) b.size (by omega)] at hnf ⊢
    split_ifs at hnf ⊢ <;> omega
  have hslot : (b.front + b.count) % b.size = b.tail := Block.front_add_count b hf ht
  show b2.contentsO = _
  rw [Block.contentsO, hcount, List.range_succ, List.map_append]
  congr 1
  · rw [Block.contentsO]
    apply List.map_congr_left
    intro a ha
    have halt : a < b.count := List.mem_range.mp ha
    have hcl : b.count < b.size := Nat.mod_lt _ hsz
    show (b.data.set b.tail ov).getD ((b.front + a) % b.size) none = _
    rw [← hslot]
    rw [getD_set_ne _ _ _ _ _ (Ne.symm (slot_ne b.front b.size a b.count (by omega) hcl (by omega)))]
  · show [(b.data.set b.tail ov).getD ((b.front + b.count) % b.size) none] = [ov]
    rw [hslot, getD_set_self _ _ _ _ (by omega)]

theorem Block.contentsO_deq {α : Type} (b : Block α) (h : b.wfb) (hne : b.front ≠ b.tail) :
    b.contentsO = b.data.getD b.front none ::
      Block.contentsO { b with front := (b.front + 1) % b.size, data := b.data.set b.front none } := by
  obtain ⟨hlen, ⟨k, hk0, hks⟩, hf, ht⟩ := h
  have hsz : 0 < b.size := by rw [hks]; exact Nat.two_pow_pos k
  set b2 : Block α := { b with front := (b.front + 1) % b.size, data := b.data.set b.front none }
    with hb2
  have hf2 : b2.front < b2.size := Nat.mod_lt _ hsz
  have ht2 : b2.tail < b2.size := ht
  have hcpos : 0 < b.count := by
    rcases Nat.eq_zero_or_pos b.count with h0 | h0
    · exact absurd ((Block.count_eq_zero_iff b ⟨hlen, ⟨k, hk0, hks⟩, hf, ht⟩).mp h0) hne
    · exact h0
  have hcount : b2.count = b.count - 1 := by
    rw [Block.count_closed b2 hf2 ht2, Block.count_closed b hf ht]
    show (if (b.front + 1) % b.size ≤ b.tail then b.tail - (b.front + 1) % b.size
      else b.tail + b.size - (b.front + 1) % b.size) = _
    rw [mod_two_cases (b.front + 1) b.size (by omega)]
    split_ifs <;> omega
  have hcl : b.count < b.size := Nat.mod_lt _ hsz
  rw [Block.contentsO, show b.count = b2.count + 1 by omega, List.range_succ_eq_map,
    List.map_cons, List.map_map]
  congr 1
  · show b.data.getD ((b.front + 0) % b.size) none = _
    rw [Nat.add_zero, Nat.mod_eq_of_lt hf]
  · rw [Block.contentsO]
    apply List.map_congr_left
    intro a ha
    have halt : a < b2.count := List.mem_range.mp ha
    show b.data.getD ((b.front + Nat.succ a) % b.size) none
      = (b.data.set b.front none).getD ((b2.front + a) % b2.size) none
    have hidx : (b2.front + a) % b2.size = (b.front + (a + 1)) % b.size := by
      show ((b.front + 1) % b.size + a) % b.size = _
      rw [Nat.mod_add_mod]
      congr 1
      omega
    rw [hidx]
    have hneed : b.front ≠ (b.front + (a + 1)) % b.size := by
      intro hcontra
      have hfr : b.front = (b.front + 0) % b.size := by
        rw [Nat.add_zero, Nat.mod_eq_of_lt hf]
      exact slot_ne b.front b.size 0 (a + 1) (by omega) (by omega) (by omega)
        (hfr.symm.trans hcontra)
    rw [getD_set_ne _ _ _ _ _ hneed]

/-- Contents do not depend on the next pointer. -/
theorem Block.contentsO_set_next {α : Type} (b : Block α) (j : Nat) :
    Block.contentsO { b with next := j } = b.contentsO := rfl

/-! ### Arena access, ring chains, and the computed path -/

theorem Queue.getBlock_setBlock_self {α : Type} (q : Queue α) (i : Nat) (b : Block α)
    (h : i < q.blocks.length) : (q.setBlock i b).getBlock i = b := by
  simp [Queue.getBlock, Queue.setBlock, List.getElem?_set_self h]

theorem Queue.getBlock_setBlock_ne {α : Type} (q : Queue α) (i j : Nat) (b : Block α)
    (h : i ≠ j) : (q.setBlock i b).getBlock j = q.getBlock j := by
  simp [Queue.getBlock, Queue.setBlock, List.getElem?_set_ne h]

theorem Queue.length_setBlock {α : Type} (q : Queue α) (i : Nat) (b : Block α) :
    (q.setBlock i b).blocks.length = q.blocks.length := by
  simp [Queue.setBlock]

theorem chain'_next_congr {α : Type} (q q2 : Queue α) :
    ∀ l : List Nat, (∀ i ∈ l, (q2.getBlock i).next = (q.getBlock i).next) →
      List.Chain' (nextRel q) l → List.Chain' (nextRel q2) l
  | [], _, _ => List.chain'_nil
  | [x], _, _ => List.chain'_singleton x
  | x :: y :: t, h, hc => by
    rw [List.chain'_cons] at hc ⊢
    refine ⟨?_, chain'_next_congr q q2 (y :: t) (fun i hi => h i (by simp [hi])) hc.2⟩
    show (q2.getBlock x).next = y
    rw [h x (by simp)]
    exact hc.1

theorem pathFrom_eq {α : Type} (q : Queue α) :
    ∀ (ps : List Nat) (fuel start : Nat),
      ps.head? = some start → ps.getLast? = some q.tailBlock →
      List.Chain' (nextRel q) ps → (∀ i ∈ ps.dropLast, i ≠ q.tailBlock) →
      ps.length ≤ fuel → pathFrom q fuel start = ps
  | [], _, _, hh, _, _, _, _ => by simp at hh
  | [x], fuel, start, hh, hl, _, _, hf => by
    have hx : x = start := by simpa using hh
    have hxt : x = q.tailBlock := by simpa using hl
    obtain ⟨f2, rfl⟩ : ∃ f2, fuel = f2 + 1 := ⟨fuel - 1, by simp at hf; omega⟩
    subst hx
    rw [pathFrom, if_pos hxt]
  | x :: y :: t, fuel, start, hh, hl, hc, hd, hf => by
    have hx : x = start := by simpa using hh
    have hxt : x ≠ q.tailBlock := hd x (by simp)
    obtain ⟨f2, rfl⟩ : ∃ f2, fuel = f2 + 1 := ⟨fuel - 1, by simp at hf; omega⟩
    have hnext : (q.getBlock x).next = y := (List.chain'_cons.mp hc).1
    subst hx
    rw [pathFrom, if_neg hxt, hnext,
      pathFrom_eq q (y :: t) f2 y rfl (by simpa using hl) (List.chain'_cons.mp hc).2
        (fun i hi => hd i (by simp [hi])) (by simp at hf ⊢; omega)]

theorem nodup_length_le {l : List Nat} {n : Nat} (hnd : l.Nodup) (hmem : ∀ i ∈ l, i < n) :
    l.length ≤ n := by
  have h1 : l.toFinset.card = l.length := List.toFinset_card_of_nodup hnd
  have h2 : l.toFinset ⊆ Finset.range n := by
    intro x hx
    rw [List.mem_toFinset] at hx
    exact Finset.mem_range.mpr (hmem x hx)
  calc l.length = l.toFinset.card := h1.symm
  _ ≤ (Finset.range n).card := Finset.card_le_card h2
  _ = n := Finset.card_range n

theorem InvOn.ps_nodup {α : Type} {q : Queue α} {ps es : List Nat} (h : InvOn q ps es) :
    ps.Nodup := (List.nodup_append.mp h.nodup).1

theorem InvOn.ps_chain {α : Type} {q : Queue α} {ps es : List Nat} (h : InvOn q ps es) :
    List.Chain' (nextRel q) ps := (List.chain'_append.mp h.chain).1

theorem InvOn.dropLast_ne_tail {α : Type} {q : Queue α} {ps es : List Nat}
    (h : InvOn q ps es) : ∀ i ∈ ps.dropLast, i ≠ q.tailBlock := by
  intro i hi hit
  have hsplit : ps.dropLast ++ [q.tailBlock] = ps :=
    List.dropLast_append_getLast? _ h.last_ps
  have hnd : (ps.dropLast ++ [q.tailBlock]).Nodup := by rw [hsplit]; exact h.ps_nodup
  obtain ⟨-, -, hdisj⟩ := List.nodup_append.mp hnd
  exact hdisj hi (by simp [hit])

theorem InvOn.ps_length_le {α : Type} {q : Queue α} {ps es : List Nat} (h : InvOn q ps es) :
    ps.length ≤ q.blocks.length := by
  apply nodup_length_le h.ps_nodup
  intro i hi
  exact (h.mem_iff i).mp (by simp [hi])

theorem InvOn.path_eq {α : Type} {q : Queue α} {ps es : List Nat} (h : InvOn q ps es) :
    path q = ps := by
  rw [path]
  exact pathFrom_eq q ps q.blocks.length q.frontBlock h.head_ps h.last_ps h.ps_chain
    h.dropLast_ne_tail h.ps_length_le

theorem InvOn.toListO_eq {α : Type} {q : Queue α} {ps es : List Nat} (h : InvOn q ps es) :
    toListO q = ps.flatMap (fun i => (q.getBlock i).contentsO) := by
  rw [toListO, h.path_eq]

/-! ### Enqueue: case analysis, invariant preservation, contents -/

theorem flatMap_congr_mem {β : Type} (l : List Nat) (f g : Nat → List β)
    (h : ∀ i ∈ l, f i = g i) : l.flatMap f = l.flatMap g := by
  induction l with
  | nil => rfl
  | cons x t ih =>
    simp only [List.flatMap_cons]
    rw [h x (by simp), ih (fun i hi => h i (by simp [hi]))]

theorem InvOn.fb_mem_ps {α : Type} {q : Queue α} {ps es : List Nat} (h : InvOn q ps es) :
    q.frontBlock ∈ ps := by
  rcases List.head?_eq_some_iff.mp h.head_ps with ⟨ys, hys⟩
  rw [hys]; simp

theorem InvOn.tb_mem_ps {α : Type} {q : Queue α} {ps es : List Nat} (h : InvOn q ps es) :
    q.tailBlock ∈ ps := List.mem_of_getLast?_eq_some h.last_ps

theorem InvOn.fb_lt {α : Type} {q : Queue α} {ps es : List Nat} (h : InvOn q ps es) :
    q.frontBlock < q.blocks.length :=
  (h.mem_iff _).mp (by simp [h.fb_mem_ps])

theorem InvOn.tb_lt {α : Type} {q : Queue α} {ps es : List Nat} (h : InvOn q ps es) :
    q.tailBlock < q.blocks.length :=
  (h.mem_iff _).mp (by simp [h.tb_mem_ps])

theorem InvOn.disj {α : Type} {q : Queue α} {ps es : List Nat} (h : InvOn q ps es) :
    List.Disjoint ps es := (List.nodup_append.mp h.nodup).2.2

theorem InvOn.es_ne_tb {α : Type} {q : Queue α} {ps es : List Nat} (h : InvOn q ps es) :
    ∀ i ∈ es, i ≠ q.tailBlock := by
  intro i hi hit
  exact h.disj (hit ▸ h.tb_mem_ps : i ∈ ps) hi

theorem InvOn.es_ne_fb {α : Type} {q : Queue α} {ps es : List Nat} (h : InvOn q ps es) :
    ∀ i ∈ es, i ≠ q.frontBlock := by
  intro i hi hit
  exact h.disj (hit ▸ h.fb_mem_ps : i ∈ ps) hi

theorem InvOn.ps_getElem_ne_tb {α : Type} {q : Queue α} {ps es : List Nat}
    (h : InvOn q ps es) (j x : Nat) (hj : j + 1 < ps.length) (hx : ps[j]? = some x) :
    x ≠ q.tailBlock := by
  apply h.dropLast_ne_tail
  rw [List.dropLast_eq_take]
  have hjlt : j < ps.length - 1 := by omega
  have hg : (ps.take (ps.length - 1))[j]? = some x := by
    rw [List.getElem?_take_of_lt hjlt]; exact hx
  exact List.getElem?_mem hg

/-- Reduction of `inner_enqueue` in Case A (room in the tail block). -/
theorem inner_enqueue_caseA {α : Type} (ca : Bool) (q : Queue α) (v : α)
    (hA : ((q.getBlock q.tailBlock).tail + 1) &&& (q.getBlock q.tailBlock).sizeMask
      ≠ (q.getBlock q.tailBlock).front) :
    inner_enqueue ca q v = (true, q.setBlock q.tailBlock
      { q.getBlock q.tailBlock with
        data := ((q.getBlock q.tailBlock).data.set (q.getBlock q.tailBlock).tail (some v)),
        tail := (((q.getBlock q.tailBlock).tail + 1) &&& (q.getBlock q.tailBlock).sizeMask) }) := by
  simp only [inner_enqueue]
  rw [if_pos hA]

/-- Case A of enqueue preserves the invariant and appends the element. -/
theorem enqueue_caseA_step {α : Type} {q : Queue α} {ps es : List Nat}
    (h : InvOn q ps es) (v : α) (ca : Bool)
    (hA : ((q.getBlock q.tailBlock).tail + 1) &&& (q.getBlock q.tailBlock).sizeMask
      ≠ (q.getBlock q.tailBlock).front) :
    (inner_enqueue ca q v).1 = true ∧
    InvOn (inner_enqueue ca q v).2 ps es ∧
    toListO (inner_enqueue ca q v).2 = toListO q ++ [some v] := by
  obtain ⟨hlen, ⟨k, hk0, hks⟩, hfr, htl⟩ := h.wf q.tailBlock h.tb_lt
  have hsz : 0 < (q.getBlock q.tailBlock).size := by rw [hks]; exact Nat.two_pow_pos k
  have hbridge : ((q.getBlock q.tailBlock).tail + 1) &&& (q.getBlock q.tailBlock).sizeMask
      = ((q.getBlock q.tailBlock).tail + 1) % (q.getBlock q.tailBlock).size :=
    and_sizeMask _ k hks _
  have hA2 : ((q.getBlock q.tailBlock).tail + 1) % (q.getBlock q.tailBlock).size
      ≠ (q.getBlock q.tailBlock).front := by rw [← hbridge]; exact hA
  have hred : (inner_enqueue ca q v).2 = q.setBlock q.tailBlock
      { q.getBlock q.tailBlock with
        data := ((q.getBlock q.tailBlock).data.set (q.getBlock q.tailBlock).tail (some v)),
        tail := (((q.getBlock q.tailBlock).tail + 1) % (q.getBlock q.tailBlock).size) } := by
    rw [inner_enqueue_caseA ca q v hA, hbridge]
  have hres : (inner_enqueue ca q v).1 = true := by
    rw [inner_enqueue_caseA ca q v hA]
  -- abbreviations for the post state
  set tb2 : Block α := { q.getBlock q.tailBlock with
    data := ((q.getBlock q.tailBlock).data.set (q.getBlock q.tailBlock).tail (some v)),
    tail := (((q.getBlock q.tailBlock).tail + 1) % (q.getBlock q.tailBlock).size) } with htb2
  set q2 : Queue α := q.setBlock q.tailBlock tb2 with hq2
  have hq2fb : q2.frontBlock = q.frontBlock := rfl
  have hq2tb : q2.tailBlock = q.tailBlock := rfl
  have hq2len : q2.blocks.length = q.blocks.length := q.length_setBlock _ _
  have hget_self : q2.getBlock q.tailBlock = tb2 :=
    q.getBlock_setBlock_self _ _ h.tb_lt
  have hget_ne : ∀ i, i ≠ q.tailBlock → q2.getBlock i = q.getBlock i := by
    intro i hi
    exact q.getBlock_setBlock_ne _ _ _ (fun hc => hi hc.symm)
  have hnext_same : ∀ i, (q2.getBlock i).next = (q.getBlock i).next := by
    intro i
    by_cases hi : i = q.tailBlock
    · subst hi; rw [hget_self]
    · rw [hget_ne i hi]
  have hwf2 : ∀ i, i < q2.blocks.length → (q2.getBlock i).wfb := by
    intro i hilt
    by_cases hi : i = q.tailBlock
    · subst hi
      rw [hget_self]
      exact ⟨by simp [htb2, hlen], ⟨k, hk0, hks⟩, hfr, Nat.mod_lt _ hsz⟩
    · rw [hget_ne i hi]
      exact h.wf i (by omega)
  have hchain2 : List.Chain' (nextRel q2) ps :=
    chain'_next_congr q q2 ps (fun i _ => hnext_same i) h.ps_chain
  have hpath2 : path q2 = ps :=
    pathFrom_eq q2 ps q2.blocks.length q2.frontBlock h.head_ps h.last_ps hchain2
      h.dropLast_ne_tail (by rw [hq2len]; exact h.ps_length_le)
  have hsplit : ps.dropLast ++ [q.tailBlock] = ps :=
    List.dropLast_append_getLast? q.tailBlock h.last_ps
  have hcontents_ne : ∀ i ∈ ps.dropLast,
      (fun j => (q2.getBlock j).contentsO) i = (fun j => (q.getBlock j).contentsO) i := by
    intro i hi
    show (q2.getBlock i).contentsO = (q.getBlock i).contentsO
    rw [hget_ne i (h.dropLast_ne_tail i hi)]
  have henq : tb2.contentsO = (q.getBlock q.tailBlock).contentsO ++ [some v] :=
    Block.contentsO_enq _ (some v) ⟨hlen, ⟨k, hk0, hks⟩, hfr, htl⟩ hA2
  have htoList : toListO q2 = toListO q ++ [some v] := by
    rw [toListO, hpath2, h.toListO_eq, ← hsplit, List.flatMap_append, List.flatMap_append,
      flatMap_congr_mem ps.dropLast (fun j => (q2.getBlock j).contentsO)
        (fun j => (q.getBlock j).contentsO) hcontents_ne]
    simp only [List.flatMap_cons, List.flatMap_nil, List.append_nil]
    rw [hget_self, henq, List.append_assoc]
  have hinv2 : InvOn q2 ps es := by
    refine ⟨?_, ?_, ?_, ?_, ?_, ?_, ?_, ?_, ?_, ?_, ?_, ?_⟩
    · exact h.head_ps
    · exact h.last_ps
    · exact h.nodup
    · intro i; rw [hq2len]; exact h.mem_iff i
    · exact chain'_next_congr q q2 _ (fun i _ => hnext_same i) h.chain
    · intro x hx
      show (q2.getBlock x).next = q2.frontBlock
      rw [hnext_same x]
      exact h.cycle x hx
    · exact hwf2
    · intro i hi
      rw [hget_ne i (h.es_ne_tb i hi)]
      exact h.empties i hi
    · intro j x hj0 hj hx
      rw [hget_ne x (h.ps_getElem_ne_tb j x hj hx)]
      exact h.mids j x hj0 hj hx
    · intro hlen2
      rw [hq2tb, hget_self]
      exact fun hc => hA2 hc.symm
    · exact h.lbs_pow
    · intro o ho
      rw [htoList] at ho
      rcases List.mem_append.mp ho with h1 | h2
      · exact h.filled o h1
      · have : o = some v := by simpa using h2
        rw [this]; rfl
  refine ⟨hres, ?_, ?_⟩
  · rw [hred]; exact hinv2
  · rw [hred]; exact htoList

/-- When the tail block is full but its successor is not `frontBlock`,
the successor is the first drained block. -/
theorem InvOn.caseB_es {α : Type} {q : Queue α} {ps es : List Nat} (h : InvOn q ps es)
    (hB : (q.getBlock q.tailBlock).next ≠ q.frontBlock) :
    ∃ e es2, es = e :: es2 ∧ (q.getBlock q.tailBlock).next = e := by
  cases es with
  | nil =>
    exfalso
    have hlast : (ps ++ ([] : List Nat)).getLast? = some q.tailBlock := by
      simpa using h.last_ps
    exact hB (h.cycle q.tailBlock hlast)
  | cons e es2 =>
    refine ⟨e, es2, rfl, ?_⟩
    exact (List.chain'_append.mp h.chain).2.2 q.tailBlock h.last_ps e rfl

/-- Reduction of `inner_enqueue` in Case B (tail full, free block ahead). -/
theorem inner_enqueue_caseB {α : Type} (ca : Bool) (q : Queue α) (v : α)
    (hA : ¬ ((q.getBlock q.tailBlock).tail + 1) &&& (q.getBlock q.tailBlock).sizeMask
      ≠ (q.getBlock q.tailBlock).front)
    (hB : (q.getBlock q.tailBlock).next ≠ q.frontBlock) :
    inner_enqueue ca q v = (true,
      { q.setBlock (q.getBlock q.tailBlock).next
          { q.getBlock (q.getBlock q.tailBlock).next with
            data := ((q.getBlock (q.getBlock q.tailBlock).next).data.set
              (q.getBlock (q.getBlock q.tailBlock).next).tail (some v)),
            tail := (((q.getBlock (q.getBlock q.tailBlock).next).tail + 1) &&&
              (q.getBlock (q.getBlock q.tailBlock).next).sizeMask) }
        with tailBlock := (q.getBlock q.tailBlock).next }) := by
  simp only [inner_enqueue]
  rw [if_neg hA, if_pos hB]

/-- Case B of enqueue: moves the tail pointer to the drained block ahead,
preserves the invariant, and appends the element. -/
theorem enqueue_caseB_step {α : Type} {q : Queue α} {ps es : List Nat}
    (h : InvOn q ps es) (v : α) (ca : Bool)
    (hA : ¬ ((q.getBlock q.tailBlock).tail + 1) &&& (q.getBlock q.tailBlock).sizeMask
      ≠ (q.getBlock q.tailBlock).front)
    (hB : (q.getBlock q.tailBlock).next ≠ q.frontBlock) :
    (inner_enqueue ca q v).1 = true ∧
    (∃ ps2 es2, InvOn (inner_enqueue ca q v).2 ps2 es2) ∧
    toListO (inner_enqueue ca q v).2 = toListO q ++ [some v] := by
  obtain ⟨e, es2, hes, hnexttb⟩ := h.caseB_es hB
  subst hes
  have he_mem_es : e ∈ e :: es2 := by simp
  have he_lt : e < q.blocks.length := (h.mem_iff e).mp (by simp)
  have he_not_ps : e ∉ ps := fun hc => h.disj hc he_mem_es
  have he_ne_fb : e ≠ q.frontBlock := h.es_ne_fb e he_mem_es
  have hempty : (q.getBlock e).front = (q.getBlock e).tail := h.empties e he_mem_es
  have hewf : (q.getBlock e).wfb := h.wf e he_lt
  obtain ⟨helen, ⟨ke, hke0, hkes⟩, hefr, hetl⟩ := h.wf e he_lt
  have hesz2 : 2 ≤ (q.getBlock e).size := Block.size_ge_two _ hewf
  have hbridge : ((q.getBlock e).tail + 1) &&& (q.getBlock e).sizeMask
      = ((q.getBlock e).tail + 1) % (q.getBlock e).size := and_sizeMask _ ke hkes _
  obtain ⟨htlen, ⟨kt, hkt0, hkts⟩, htfr, httl⟩ := h.wf q.tailBlock h.tb_lt
  have htb_full : (q.getBlock q.tailBlock).isFull := by
    have hfull := not_ne_iff.mp hA
    rw [and_sizeMask _ kt hkts] at hfull
    exact hfull.symm
  have hnotfull_e : ((q.getBlock e).tail + 1) % (q.getBlock e).size
      ≠ (q.getBlock e).front := by
    intro hc
    rw [hempty, mod_two_cases _ _ (by omega)] at hc
    split_ifs at hc <;> omega
  set nb2 : Block α := { q.getBlock e with
    data := ((q.getBlock e).data.set (q.getBlock e).tail (some v)),
    tail := (((q.getBlock e).tail + 1) % (q.getBlock e).size) } with hnb2
  set q2 : Queue α := { q.setBlock e nb2 with tailBlock := e } with hq2
  have hred : (inner_enqueue ca q v).2 = q2 := by
    rw [inner_enqueue_caseB ca q v hA hB]
    simp only [hnexttb, hbridge]
  have hres : (inner_enqueue ca q v).1 = true := by
    rw [inner_enqueue_caseB ca q v hA hB]
  have hq2fb : q2.frontBlock = q.frontBlock := rfl
  have hq2tb : q2.tailBlock = e := rfl
  have hq2len : q2.blocks.length = q.blocks.length := q.length_setBlock _ _
  have hget_self : q2.getBlock e = nb2 := q.getBlock_setBlock_self _ _ he_lt
  have hget_ne : ∀ i, i ≠ e → q2.getBlock i = q.getBlock i := by
    intro i hi
    exact q.getBlock_setBlock_ne _ _ _ (fun hc => hi hc.symm)
  have hnext_same : ∀ i, (q2.getBlock i).next = (q.getBlock i).next := by
    intro i
    by_cases hi : i = e
    · subst hi; rw [hget_self]
    · rw [hget_ne i hi]
  obtain ⟨ys, hps⟩ := List.head?_eq_some_iff.mp h.head_ps
  have hring : (ps ++ [e]) ++ es2 = ps ++ e :: es2 := by simp
  have hhead2 : (ps ++ [e]).head? = some q2.frontBlock := by rw [hps]; rfl
  have hlast2 : (ps ++ [e]).getLast? = some e := List.getLast?_concat ps
  have hnodup2 : ((ps ++ [e]) ++ es2).Nodup := by rw [hring]; exact h.nodup
  have hmem2 : ∀ i, i ∈ (ps ++ [e]) ++ es2 ↔ i < q2.blocks.length := by
    intro i; rw [hring, hq2len]; exact h.mem_iff i
  have hchain_all2 : List.Chain' (nextRel q2) ((ps ++ [e]) ++ es2) := by
    rw [hring]
    exact chain'_next_congr q q2 _ (fun i _ => hnext_same i) h.chain
  have hcycle2 : ∀ x ∈ ((ps ++ [e]) ++ es2).getLast?, nextRel q2 x q2.frontBlock := by
    intro x hx
    rw [hring] at hx
    show (q2.getBlock x).next = q2.frontBlock
    rw [hnext_same x]
    exact h.cycle x hx
  have hwf2 : ∀ i, i < q2.blocks.length → (q2.getBlock i).wfb := by
    intro i hilt
    by_cases hi : i = e
    · subst hi
      rw [hget_self]
      refine ⟨by simp [hnb2, helen], ⟨ke, hke0, hkes⟩, hefr, Nat.mod_lt _ (by omega)⟩
    · rw [hget_ne i hi]
      exact h.wf i (by omega)
  have he_not_es2 : e ∉ es2 := by
    have hnd : (e :: es2).Nodup := (List.nodup_append.mp h.nodup).2.1
    exact (List.nodup_cons.mp hnd).1
  have hempties2 : ∀ i ∈ es2, (q2.getBlock i).front = (q2.getBlock i).tail := by
    intro i hi
    rw [hget_ne i (fun hc => he_not_es2 (hc ▸ hi))]
    exact h.empties i (by simp [hi])
  have hmids2 : ∀ j x, 0 < j → j + 1 < (ps ++ [e]).length → (ps ++ [e])[j]? = some x →
      (q2.getBlock x).isFull := by
    intro j x hj0 hj hx
    have hjlt : j < ps.length := by simp at hj; omega
    rw [List.getElem?_append_left hjlt] at hx
    have hx_mem : x ∈ ps := List.getElem?_mem hx
    have hx_ne_e : x ≠ e := fun hc => he_not_ps (hc ▸ hx_mem)
    rw [hget_ne x hx_ne_e]
    by_cases hjl : j + 1 < ps.length
    · exact h.mids j x hj0 hjl hx
    · have hj_eq : j = ps.length - 1 := by omega
      have hlast_idx : ps[ps.length - 1]? = some q.tailBlock := by
        rw [← List.getLast?_eq_getElem?]
        exact h.last_ps
      rw [hj_eq, hlast_idx] at hx
      cases hx
      exact htb_full
  have htail_ne2 : 1 < (ps ++ [e]).length →
      (q2.getBlock q2.tailBlock).front ≠ (q2.getBlock q2.tailBlock).tail := by
    intro hlen2
    rw [hq2tb, hget_self]
    exact fun hc => hnotfull_e hc.symm
  have hps2_nodup : (ps ++ [e]).Nodup := (List.nodup_append.mp hnodup2).1
  have hps2_len : (ps ++ [e]).length ≤ q2.blocks.length := by
    apply nodup_length_le hps2_nodup
    intro i hi
    exact (hmem2 i).mp (by simp at hi ⊢; tauto)
  have hchain_ps2 : List.Chain' (nextRel q2) (ps ++ [e]) :=
    (List.chain'_append.mp hchain_all2).1
  have hdrop2 : ∀ i ∈ (ps ++ [e]).dropLast, i ≠ q2.tailBlock := by
    intro i hi hc
    rw [List.dropLast_concat] at hi
    rw [hq2tb] at hc
    exact he_not_ps (hc ▸ hi)
  have hpath2 : path q2 = ps ++ [e] :=
    pathFrom_eq q2 (ps ++ [e]) q2.blocks.length q2.frontBlock hhead2
      (by rw [hq2tb]; exact hlast2) hchain_ps2 hdrop2 hps2_len
  have hcontents_ne : ∀ i ∈ ps,
      (fun j => (q2.getBlock j).contentsO) i = (fun j => (q.getBlock j).contentsO) i := by
    intro i hi
    show (q2.getBlock i).contentsO = (q.getBlock i).contentsO
    rw [hget_ne i (fun hc => he_not_ps (hc ▸ hi))]
  have henq : nb2.contentsO = (q.getBlock e).contentsO ++ [some v] :=
    Block.contentsO_enq _ (some v) hewf hnotfull_e
  have htoList : toListO q2 = toListO q ++ [some v] := by
    rw [toListO, hpath2, List.flatMap_append,
      flatMap_congr_mem ps (fun j => (q2.getBlock j).contentsO)
        (fun j => (q.getBlock j).contentsO) hcontents_ne, h.toListO_eq]
    simp only [List.flatMap_cons, List.flatMap_nil, List.append_nil]
    rw [hget_self, henq, Block.contentsO_empty _ hempty]
    simp
  have hinv2 : InvOn q2 (ps ++ [e]) es2 := by
    refine ⟨hhead2, by rw [hq2tb]; exact hlast2, hnodup2, hmem2, hchain_all2, hcycle2,
      hwf2, hempties2, hmids2, htail_ne2, h.lbs_pow, ?_⟩
    intro o ho
    rw [htoList] at ho
    rcases List.mem_append.mp ho with h1 | h2
    · exact h.filled o h1
    · have ho2 : o = some v := by simpa using h2
      rw [ho2]; rfl
  refine ⟨hres, ⟨ps ++ [e], es2, by rw [hred]; exact hinv2⟩, by rw [hred]; exact htoList⟩

theorem chain'_next_congr_dropLast {α : Type} (q q2 : Queue α) :
    ∀ l : List Nat, (∀ i ∈ l.dropLast, (q2.getBlock i).next = (q.getBlock i).next) →
      List.Chain' (nextRel q) l → List.Chain' (nextRel q2) l
  | [], _, _ => List.chain'_nil
  | [x], _, _ => List.chain'_singleton x
  | x :: y :: t, h, hc => by
    rw [List.chain'_cons] at hc ⊢
    refine ⟨?_, chain'_next_congr_dropLast q q2 (y :: t)
      (fun i hi => h i (by simp [List.dropLast] at hi ⊢; tauto)) hc.2⟩
    show (q2.getBlock x).next = y
    rw [h x (by simp [List.dropLast])]
    exact hc.1

/-- Reduction of `inner_enqueue` in Case C (grow a new block). -/
theorem inner_enqueue_caseC {α : Type} (q : Queue α) (v : α)
    (hA : ¬ ((q.getBlock q.tailBlock).tail + 1) &&& (q.getBlock q.tailBlock).sizeMask
      ≠ (q.getBlock q.tailBlock).front)
    (hB : ¬ (q.getBlock q.tailBlock).next ≠ q.frontBlock) :
    inner_enqueue true q v = (true, {
      blocks := ((q.blocks.set q.tailBlock
          { q.getBlock q.tailBlock with next := q.blocks.length }) ++ [{
        front := 0, tail := 1, next := (q.getBlock q.tailBlock).next,
        data := ((List.replicate (q.largestBlockSize * 2) (none : Option α)).set 0 (some v)),
        size := q.largestBlockSize * 2 }]),
      frontBlock := q.frontBlock, tailBlock := q.blocks.length,
      largestBlockSize := q.largestBlockSize * 2 }) := by
  simp only [inner_enqueue]
  rw [if_neg hA, if_neg hB]
  simp

/-- Reduction of `inner_enqueue` when full, no slack, and allocation is
forbidden: fail and leave the queue untouched. -/
theorem inner_enqueue_fail {α : Type} (q : Queue α) (v : α)
    (hA : ¬ ((q.getBlock q.tailBlock).tail + 1) &&& (q.getBlock q.tailBlock).sizeMask
      ≠ (q.getBlock q.tailBlock).front)
    (hB : ¬ (q.getBlock q.tailBlock).next ≠ q.frontBlock) :
    inner_enqueue false q v = (false, q) := by
  simp only [inner_enqueue]
  rw [if_neg hA, if_neg hB]
  simp

/-- Case C of enqueue (growth) preserves the invariant and appends the
element; it doubles `largestBlockSize` and adds exactly one block. -/
theorem enqueue_caseC_step {α : Type} {q : Queue α} {ps es : List Nat}
    (h : InvOn q ps es) (v : α)
    (hA : ¬ ((q.getBlock q.tailBlock).tail + 1) &&& (q.getBlock q.tailBlock).sizeMask
      ≠ (q.getBlock q.tailBlock).front)
    (hB : ¬ (q.getBlock q.tailBlock).next ≠ q.frontBlock) :
    (inner_enqueue true q v).1 = true ∧
    (∃ ps2 es2, InvOn (inner_enqueue true q v).2 ps2 es2) ∧
    toListO (inner_enqueue true q v).2 = toListO q ++ [some v] := by
  have hBeq : (q.getBlock q.tailBlock).next = q.frontBlock := not_ne_iff.mp hB
  have hes_nil : es = [] := by
    cases es with
    | nil => rfl
    | cons e es2 =>
      exfalso
      have hnte := (List.chain'_append.mp h.chain).2.2 q.tailBlock h.last_ps e rfl
      have he_fb : e = q.frontBlock := by rw [← hnte]; exact hBeq
      exact h.es_ne_fb e (by simp) he_fb
  subst hes_nil
  obtain ⟨htlen, ⟨kt, hkt0, hkts⟩, htfr, httl⟩ := h.wf q.tailBlock h.tb_lt
  have htb_full : (q.getBlock q.tailBlock).isFull := by
    have hfull := not_ne_iff.mp hA
    rw [and_sizeMask _ kt hkts] at hfull
    exact hfull.symm
  obtain ⟨kl, hkl0, hkl⟩ := h.lbs_pow
  have hnewsz : 2 ≤ q.largestBlockSize * 2 := by
    have : 1 ≤ q.largestBlockSize := by rw [hkl]; exact Nat.one_le_two_pow
    omega
  set n : Nat := q.blocks.length with hn
  set tb2 : Block α := { q.getBlock q.tailBlock with next := n } with htb2
  set nb : Block α := {
    front := 0, tail := 1, next := (q.getBlock q.tailBlock).next,
    data := ((List.replicate (q.largestBlockSize * 2) (none : Option α)).set 0 (some v)),
    size := q.largestBlockSize * 2 } with hnb
  set q2 : Queue α := {
    blocks := ((q.blocks.set q.tailBlock tb2) ++ [nb]),
    frontBlock := q.frontBlock, tailBlock := n,
    largestBlockSize := q.largestBlockSize * 2 } with hq2
  have hred : (inner_enqueue true q v).2 = q2 := by
    rw [inner_enqueue_caseC q v hA hB]
  have hres : (inner_enqueue true q v).1 = true := by
    rw [inner_enqueue_caseC q v hA hB]
  have hq2len : q2.blocks.length = n + 1 := by
    show ((q.blocks.set q.tailBlock tb2) ++ [nb]).length = n + 1
    simp [hn]
  have hget2_lt : ∀ i, i < n → i ≠ q.tailBlock → q2.getBlock i = q.getBlock i := by
    intro i hilt hine
    show (((q.blocks.set q.tailBlock tb2 ++ [nb])[i]?).getD _) = _
    rw [List.getElem?_append_left (by simp [hn]; omega),
      List.getElem?_set_ne (fun hc => hine hc.symm)]
    rfl
  have hget2_tb : q2.getBlock q.tailBlock = tb2 := by
    show (((q.blocks.set q.tailBlock tb2 ++ [nb])[q.tailBlock]?).getD _) = _
    rw [List.getElem?_append_left (by simp [hn]; exact h.tb_lt),
      List.getElem?_set_self (by simpa using h.tb_lt)]
    rfl
  have hget2_n : q2.getBlock n = nb := by
    show (((q.blocks.set q.tailBlock tb2 ++ [nb])[n]?).getD _) = _
    rw [List.getElem?_append_right (by simp [hn])]
    simp [hn]
  have hmem_lt : ∀ i ∈ ps, i < n := by
    intro i hi
    exact (h.mem_iff i).mp (by simp [hi])
  have hn_not_ps : n ∉ ps := fun hc => by have := hmem_lt n hc; omega
  obtain ⟨ys, hps⟩ := List.head?_eq_some_iff.mp h.head_ps
  have hhead2 : (ps ++ [n]).head? = some q2.frontBlock := by rw [hps]; rfl
  have hlast2 : (ps ++ [n]).getLast? = some n := List.getLast?_concat ps
  have hnodup2 : ((ps ++ [n]) ++ ([] : List Nat)).Nodup := by
    rw [List.append_nil]
    refine List.nodup_append.mpr ⟨h.ps_nodup, by simp, ?_⟩
    intro a ha hb
    rw [List.mem_singleton.mp hb] at ha
    exact hn_not_ps ha
  have hmem2 : ∀ i, i ∈ (ps ++ [n]) ++ ([] : List Nat) ↔ i < q2.blocks.length := by
    intro i
    rw [List.append_nil, hq2len]
    constructor
    · intro hi
      rcases List.mem_append.mp hi with h1 | h2
      · have := hmem_lt i h1; omega
      · rw [List.mem_singleton.mp h2]; omega
    · intro hi
      rcases Nat.lt_or_ge i n with h1 | h1
      · have hi_ps : i ∈ ps ++ ([] : List Nat) := (h.mem_iff i).mpr h1
        rw [List.append_nil] at hi_ps
        exact List.mem_append.mpr (Or.inl hi_ps)
      · have : i = n := by omega
        simp [this]
  have hdrop_next_same : ∀ i ∈ ps.dropLast, (q2.getBlock i).next = (q.getBlock i).next := by
    intro i hi
    have himem : i ∈ ps := by
      rw [List.dropLast_eq_take] at hi
      exact List.mem_of_mem_take hi
    rw [hget2_lt i (hmem_lt i himem) (h.dropLast_ne_tail i hi)]
  have hchain_ps2 : List.Chain' (nextRel q2) (ps ++ [n]) := by
    apply List.chain'_append.mpr
    refine ⟨chain'_next_congr_dropLast q q2 ps hdrop_next_same h.ps_chain,
      List.chain'_singleton n, ?_⟩
    intro x hx y hy
    have hx_tb : x = q.tailBlock := by
      have h1 : ps.getLast? = some x := hx
      rw [h.last_ps] at h1
      exact (Option.some_inj.mp h1).symm
    have hy_n : y = n := by
      have h1 : ([n] : List Nat).head? = some y := hy
      simp at h1
      exact h1.symm
    subst hx_tb
    subst hy_n
    show (q2.getBlock q.tailBlock).next = n
    rw [hget2_tb]
  have hcycle2 : ∀ x ∈ ((ps ++ [n]) ++ ([] : List Nat)).getLast?, nextRel q2 x q2.frontBlock := by
    intro x hx
    have h1 : ((ps ++ [n]) ++ ([] : List Nat)).getLast? = some x := hx
    rw [List.append_nil, hlast2] at h1
    have hx_n : x = n := Option.some_inj.mp h1.symm
    subst hx_n
    show (q2.getBlock n).next = q2.frontBlock
    rw [hget2_n]
    show (q.getBlock q.tailBlock).next = q.frontBlock
    exact hBeq
  have hchain_all2 : List.Chain' (nextRel q2) ((ps ++ [n]) ++ ([] : List Nat)) := by
    rw [List.append_nil]
    exact hchain_ps2
  have hwf2 : ∀ i, i < q2.blocks.length → (q2.getBlock i).wfb := by
    intro i hilt
    rw [hq2len] at hilt
    rcases Nat.lt_or_ge i n with h1 | h1
    · by_cases hi : i = q.tailBlock
      · subst hi
        rw [hget2_tb]
        exact ⟨htlen, ⟨kt, hkt0, hkts⟩, htfr, httl⟩
      · rw [hget2_lt i h1 hi]
        exact h.wf i (by omega)
    · have hi_n : i = n := by omega
      subst hi_n
      rw [hget2_n]
      refine ⟨by simp [hnb], ⟨kl + 1, by omega, ?_⟩,
        by show (0 : Nat) < q.largestBlockSize * 2; omega,
        by show (1 : Nat) < q.largestBlockSize * 2; omega⟩
      show q.largestBlockSize * 2 = 2 ^ (kl + 1)
      rw [hkl, Nat.pow_succ]
  have hempties2 : ∀ i ∈ ([] : List Nat), (q2.getBlock i).front = (q2.getBlock i).tail := by
    intro i hi
    cases hi
  have hmids2 : ∀ j x, 0 < j → j + 1 < (ps ++ [n]).length → (ps ++ [n])[j]? = some x →
      (q2.getBlock x).isFull := by
    intro j x hj0 hj hx
    have hjlt : j < ps.length := by simp at hj; omega
    rw [List.getElem?_append_left hjlt] at hx
    have hx_mem : x ∈ ps := List.getElem?_mem hx
    by_cases hjl : j + 1 < ps.length
    · have hx_ne_tb : x ≠ q.tailBlock := h.ps_getElem_ne_tb j x hjl hx
      rw [hget2_lt x (hmem_lt x hx_mem) hx_ne_tb]
      exact h.mids j x hj0 hjl hx
    · have hj_eq : j = ps.length - 1 := by omega
      have hlast_idx : ps[ps.length - 1]? = some q.tailBlock := by
        rw [← List.getLast?_eq_getElem?]
        exact h.last_ps
      rw [hj_eq, hlast_idx] at hx
      cases hx
      rw [hget2_tb]
      show tb2.front = (tb2.tail + 1) % tb2.size
      exact htb_full
  have htail_ne2 : 1 < (ps ++ [n]).length →
      (q2.getBlock q2.tailBlock).front ≠ (q2.getBlock q2.tailBlock).tail := by
    intro hlen2
    show (q2.getBlock n).front ≠ (q2.getBlock n).tail
    rw [hget2_n]
    show (0 : Nat) ≠ 1
    omega
  have hlbs2 : ∃ k, 0 < k ∧ q2.largestBlockSize = 2 ^ k := by
    refine ⟨kl + 1, by omega, ?_⟩
    show q.largestBlockSize * 2 = 2 ^ (kl + 1)
    rw [hkl, Nat.pow_succ]
  have hps2_len : (ps ++ [n]).length ≤ q2.blocks.length := by
    rw [hq2len]
    simp
    exact h.ps_length_le
  have hdrop2 : ∀ i ∈ (ps ++ [n]).dropLast, i ≠ q2.tailBlock := by
    intro i hi hc
    rw [List.dropLast_concat] at hi
    have := hmem_lt i hi
    have hc2 : i = n := hc
    omega
  have hpath2 : path q2 = ps ++ [n] :=
    pathFrom_eq q2 (ps ++ [n]) q2.blocks.length q2.frontBlock hhead2 hlast2 hchain_ps2
      hdrop2 hps2_len
  have hcontents_same : ∀ i ∈ ps,
      (fun j => (q2.getBlock j).contentsO) i = (fun j => (q.getBlock j).contentsO) i := by
    intro i hi
    show (q2.getBlock i).contentsO = (q.getBlock i).contentsO
    by_cases hit : i = q.tailBlock
    · subst hit
      rw [hget2_tb]
      exact Block.contentsO_set_next _ _
    · rw [hget2_lt i (hmem_lt i hi) hit]
  have hnb_contents : nb.contentsO = [some v] := by
    have hcount : nb.count = 1 := by
      show (1 + q.largestBlockSize * 2 - 0) % (q.largestBlockSize * 2) = 1
      rw [Nat.sub_zero, Nat.add_comm, Nat.add_mod_left]
      exact Nat.mod_eq_of_lt (by omega)
    rw [Block.contentsO, hcount]
    show [nb.data.getD ((nb.front + 0) % nb.size) none] = [some v]
    have hidx : (nb.front + 0) % nb.size = 0 := by
      show (0 + 0) % (q.largestBlockSize * 2) = 0
      simp
    rw [hidx]
    have hgd : nb.data.getD 0 none = some v := by
      show ((List.replicate (q.largestBlockSize * 2) (none : Option α)).set 0 (some v)).getD 0 none
        = some v
      rw [getD_set_self _ _ _ _ (by simp; omega)]
    rw [hgd]
  have htoList : toListO q2 = toListO q ++ [some v] := by
    rw [toListO, hpath2, List.flatMap_append,
      flatMap_congr_mem ps (fun j => (q2.getBlock j).contentsO)
        (fun j => (q.getBlock j).contentsO) hcontents_same, h.toListO_eq]
    simp only [List.flatMap_cons, List.flatMap_nil, List.append_nil]
    rw [hget2_n, hnb_contents]
  have hinv2 : InvOn q2 (ps ++ [n]) ([] : List Nat) := by
    refine ⟨hhead2, hlast2, hnodup2, hmem2, hchain_all2, hcycle2, hwf2, hempties2,
      hmids2, htail_ne2, hlbs2, ?_⟩
    intro o ho
    rw [htoList] at ho
    rcases List.mem_append.mp ho with h1 | h2
    · exact h.filled o h1
    · have ho2 : o = some v := by simpa using h2
      rw [ho2]; rfl
  refine ⟨hres, ⟨ps ++ [n], ([] : List Nat), by rw [hred]; exact hinv2⟩,
    by rw [hred]; exact htoList⟩

/-! ### Dequeue case analysis, per-operation totals, and conservation -/

theorem nodup_getElem?_inj {l : List Nat} (h : l.Nodup) {i j x : Nat}
    (hi : l[i]? = some x) (hj : l[j]? = some x) : i = j := by
  have hilt : i < l.length := by
    by_contra hc
    rw [List.getElem?_eq_none (by omega)] at hi
    cases hi
  have hjlt : j < l.length := by
    by_contra hc
    rw [List.getElem?_eq_none (by omega)] at hj
    cases hj
  rw [List.getElem?_eq_getElem hilt] at hi
  rw [List.getElem?_eq_getElem hjlt] at hj
  have heq : l[i] = l[j] := by
    rw [Option.some_inj.mp hi, Option.some_inj.mp hj]
  exact (List.Nodup.getElem_inj_iff h).mp heq

theorem InvOn.fb_ne_tb_of_len {α : Type} {q : Queue α} {ps es : List Nat}
    (h : InvOn q ps es) (hlen : 1 < ps.length) : q.frontBlock ≠ q.tailBlock := by
  intro hc
  have h0 : ps[0]? = some q.frontBlock := by
    obtain ⟨ys, hps⟩ := List.head?_eq_some_iff.mp h.head_ps
    rw [hps]; simp
  have hlast : ps[ps.length - 1]? = some q.frontBlock := by
    rw [← List.getLast?_eq_getElem?, h.last_ps, hc]
  have := nodup_getElem?_inj h.ps_nodup h0 hlast
  omega

/-- Reduction of `try_dequeue` in Case A (front block not empty). -/
theorem try_dequeue_caseA {α : Type} (q : Queue α)
    (hA : (q.getBlock q.frontBlock).front ≠ (q.getBlock q.frontBlock).tail) :
    try_dequeue q = (true,
      (q.getBlock q.frontBlock).data.getD (q.getBlock q.frontBlock).front none,
      q.setBlock q.frontBlock { q.getBlock q.frontBlock with
        front := (((q.getBlock q.frontBlock).front + 1) &&& (q.getBlock q.frontBlock).sizeMask),
        data := ((q.getBlock q.frontBlock).data.set (q.getBlock q.frontBlock).front none) }) := by
  simp only [try_dequeue]
  rw [if_pos hA]

/-- Reduction of `try_dequeue` in Case B (front block empty, advance). -/
theorem try_dequeue_caseB {α : Type} (q : Queue α)
    (hA : ¬ (q.getBlock q.frontBlock).front ≠ (q.getBlock q.frontBlock).tail)
    (hB : q.frontBlock ≠ q.tailBlock) :
    try_dequeue q = (true,
      (q.getBlock (q.getBlock q.frontBlock).next).data.getD
        (q.getBlock (q.getBlock q.frontBlock).next).front none,
      { q.setBlock (q.getBlock q.frontBlock).next
          { q.getBlock (q.getBlock q.frontBlock).next with
            front := (((q.getBlock (q.getBlock q.frontBlock).next).front + 1) &&&
              (q.getBlock (q.getBlock q.frontBlock).next).sizeMask),
            data := ((q.getBlock (q.getBlock q.frontBlock).next).data.set
              (q.getBlock (q.getBlock q.frontBlock).next).front none) }
        with frontBlock := (q.getBlock q.frontBlock).next }) := by
  simp only [try_dequeue]
  rw [if_neg hA, if_pos hB]

/-- Reduction of `try_dequeue` in Case C (empty queue). -/
theorem try_dequeue_caseC {α : Type} (q : Queue α)
    (hA : ¬ (q.getBlock q.frontBlock).front ≠ (q.getBlock q.frontBlock).tail)
    (hB : ¬ q.frontBlock ≠ q.tailBlock) :
    try_dequeue q = (false, none, q) := by
  simp only [try_dequeue]
  rw [if_neg hA, if_neg hB]

/-- Case A of dequeue: removes and returns the head of the contents. -/
theorem dequeue_caseA_step {α : Type} {q : Queue α} {ps es : List Nat}
    (h : InvOn q ps es)
    (hA : (q.getBlock q.frontBlock).front ≠ (q.getBlock q.frontBlock).tail) :
    (try_dequeue q).1 = true ∧
    (∃ ps2 es2, InvOn (try_dequeue q).2.2 ps2 es2) ∧
    toListO q = (try_dequeue q).2.1 :: toListO (try_dequeue q).2.2 := by
  have hfwf : (q.getBlock q.frontBlock).wfb := h.wf q.frontBlock h.fb_lt
  obtain ⟨hflen, ⟨kf, hkf0, hkfs⟩, hffr, hftl⟩ := h.wf q.frontBlock h.fb_lt
  have hsz : 0 < (q.getBlock q.frontBlock).size := by rw [hkfs]; exact Nat.two_pow_pos kf
  have hbridge : ((q.getBlock q.frontBlock).front + 1) &&& (q.getBlock q.frontBlock).sizeMask
      = ((q.getBlock q.frontBlock).front + 1) % (q.getBlock q.frontBlock).size :=
    and_sizeMask _ kf hkfs _
  set fb2 : Block α := { q.getBlock q.frontBlock with
    front := (((q.getBlock q.frontBlock).front + 1) % (q.getBlock q.frontBlock).size),
    data := ((q.getBlock q.frontBlock).data.set (q.getBlock q.frontBlock).front none) }
    with hfb2
  set q2 : Queue α := q.setBlock q.frontBlock fb2 with hq2
  have hred : (try_dequeue q).2.2 = q2 := by
    rw [try_dequeue_caseA q hA, hbridge]
  have hout : (try_dequeue q).2.1
      = (q.getBlock q.frontBlock).data.getD (q.getBlock q.frontBlock).front none := by
    rw [try_dequeue_caseA q hA]
  have hres : (try_dequeue q).1 = true := by
    rw [try_dequeue_caseA q hA]
  have hq2len : q2.blocks.length = q.blocks.length := q.length_setBlock _ _
  have hget_self : q2.getBlock q.frontBlock = fb2 :=
    q.getBlock_setBlock_self _ _ h.fb_lt
  have hget_ne : ∀ i, i ≠ q.frontBlock → q2.getBlock i = q.getBlock i := by
    intro i hi
    exact q.getBlock_setBlock_ne _ _ _ (fun hc => hi hc.symm)
  have hnext_same : ∀ i, (q2.getBlock i).next = (q.getBlock i).next := by
    intro i
    by_cases hi : i = q.frontBlock
    · subst hi; rw [hget_self]
    · rw [hget_ne i hi]
  obtain ⟨ys, hps⟩ := List.head?_eq_some_iff.mp h.head_ps
  have hfb_idx0 : ps[0]? = some q.frontBlock := by rw [hps]; simp
  have hwf2 : ∀ i, i < q2.blocks.length → (q2.getBlock i).wfb := by
    intro i hilt
    by_cases hi : i = q.frontBlock
    · subst hi
      rw [hget_self]
      exact ⟨by simp [hfb2, hflen], ⟨kf, hkf0, hkfs⟩, Nat.mod_lt _ hsz, hftl⟩
    · rw [hget_ne i hi]
      exact h.wf i (by omega)
  have hchain2 : List.Chain' (nextRel q2) ps :=
    chain'_next_congr q q2 ps (fun i _ => hnext_same i) h.ps_chain
  have hpath2 : path q2 = ps :=
    pathFrom_eq q2 ps q2.blocks.length q2.frontBlock h.head_ps h.last_ps hchain2
      h.dropLast_ne_tail (by rw [hq2len]; exact h.ps_length_le)
  have hdeq : (q.getBlock q.frontBlock).contentsO
      = (q.getBlock q.frontBlock).data.getD (q.getBlock q.frontBlock).front none
        :: fb2.contentsO :=
    Block.contentsO_deq _ hfwf hA
  have hys_ne_fb : ∀ i ∈ ys, i ≠ q.frontBlock := by
    intro i hi hc
    have hnd : (q.frontBlock :: ys).Nodup := by rw [← hps]; exact h.ps_nodup
    exact (List.nodup_cons.mp hnd).1 (hc ▸ hi)
  have hcontents_ne : ∀ i ∈ ys,
      (fun j => (q2.getBlock j).contentsO) i = (fun j => (q.getBlock j).contentsO) i := by
    intro i hi
    show (q2.getBlock i).contentsO = (q.getBlock i).contentsO
    rw [hget_ne i (hys_ne_fb i hi)]
  have htl2 : toListO q2 = fb2.contentsO ++ ys.flatMap (fun j => (q.getBlock j).contentsO) := by
    rw [toListO, hpath2, hps]
    simp only [List.flatMap_cons]
    rw [hget_self, flatMap_congr_mem ys (fun j => (q2.getBlock j).contentsO)
      (fun j => (q.getBlock j).contentsO) hcontents_ne]
  have htoList : toListO q = (try_dequeue q).2.1 :: toListO q2 := by
    rw [h.toListO_eq, hps]
    simp only [List.flatMap_cons]
    rw [hdeq, hout, htl2]
    rfl
  have hchain_all2 : List.Chain' (nextRel q2) (ps ++ es) :=
    chain'_next_congr q q2 (ps ++ es) (fun i _ => hnext_same i) h.chain
  have hinv2 : InvOn q2 ps es := by
    refine ⟨h.head_ps, h.last_ps, h.nodup, ?_, hchain_all2, ?_, hwf2, ?_, ?_, ?_,
      h.lbs_pow, ?_⟩
    · intro i; rw [hq2len]; exact h.mem_iff i
    · intro x hx
      show (q2.getBlock x).next = q2.frontBlock
      rw [hnext_same x]
      exact h.cycle x hx
    · intro i hi
      rw [hget_ne i (h.es_ne_fb i hi)]
      exact h.empties i hi
    · intro j x hj0 hj hx
      have hx_ne_fb : x ≠ q.frontBlock := by
        intro hc
        have := nodup_getElem?_inj h.ps_nodup (hc ▸ hx) hfb_idx0
        omega
      rw [hget_ne x hx_ne_fb]
      exact h.mids j x hj0 hj hx
    · intro hlen2
      have hne := h.fb_ne_tb_of_len hlen2
      show (q2.getBlock q.tailBlock).front ≠ (q2.getBlock q.tailBlock).tail
      rw [hget_ne q.tailBlock (fun hc => hne hc.symm)]
      exact h.tail_ne hlen2
    · intro o ho
      apply h.filled
      rw [htoList]
      simp [ho]
  refine ⟨hres, ⟨ps, es, by rw [hred]; exact hinv2⟩, by rw [hred]; exact htoList⟩

/-- Case B of dequeue: advances `frontBlock` past the drained front block
and dequeues from the next block. -/
theorem dequeue_caseB_step {α : Type} {q : Queue α} {ps es : List Nat}
    (h : InvOn q ps es)
    (hA : ¬ (q.getBlock q.frontBlock).front ≠ (q.getBlock q.frontBlock).tail)
    (hB : q.frontBlock ≠ q.tailBlock) :
    (try_dequeue q).1 = true ∧
    (∃ ps2 es2, InvOn (try_dequeue q).2.2 ps2 es2) ∧
    toListO q = (try_dequeue q).2.1 :: toListO (try_dequeue q).2.2 := by
  have hA2 : (q.getBlock q.frontBlock).front = (q.getBlock q.frontBlock).tail :=
    not_ne_iff.mp hA
  obtain ⟨ys, hps⟩ := List.head?_eq_some_iff.mp h.head_ps
  -- ys is nonempty since the head of ps is not its last element
  have hys_ne : ys ≠ [] := by
    intro hc
    rw [hc] at hps
    have := h.last_ps
    rw [hps] at this
    simp at this
    exact hB this
  obtain ⟨w, ys2, hys⟩ : ∃ w ys2, ys = w :: ys2 := by
    cases ys with
    | nil => exact absurd rfl hys_ne
    | cons w ys2 => exact ⟨w, ys2, rfl⟩
  subst hys
  have hps2 : ps = q.frontBlock :: w :: ys2 := hps
  have hnd_old : (q.frontBlock :: (w :: ys2 ++ es)).Nodup := by
    have := h.nodup
    rw [hps2] at this
    simpa using this
  have hfb_notin : q.frontBlock ∉ w :: ys2 ++ es := (List.nodup_cons.mp hnd_old).1
  have hnd_yses : (w :: ys2 ++ es).Nodup := (List.nodup_cons.mp hnd_old).2
  have hnd_ys : (w :: ys2).Nodup := by
    have := h.ps_nodup
    rw [hps2] at this
    exact (List.nodup_cons.mp this).2
  have hnext_fb : (q.getBlock q.frontBlock).next = w := by
    have hc := h.chain
    rw [hps2] at hc
    exact (List.chain'_cons.mp hc).1
  have hw_mem_ps : w ∈ ps := by rw [hps2]; simp
  have hw_lt : w < q.blocks.length := (h.mem_iff w).mp (by simp [hw_mem_ps])
  have hw_ne_fb : w ≠ q.frontBlock := by
    intro hc
    exact hfb_notin (by rw [← hc]; simp)
  have hnwf : (q.getBlock w).wfb := h.wf w hw_lt
  obtain ⟨hnlen, ⟨kn, hkn0, hkns⟩, hnfr, hntl⟩ := h.wf w hw_lt
  have hnsz : 0 < (q.getBlock w).size := by rw [hkns]; exact Nat.two_pow_pos kn
  have hbridge : ((q.getBlock w).front + 1) &&& (q.getBlock w).sizeMask
      = ((q.getBlock w).front + 1) % (q.getBlock w).size := and_sizeMask _ kn hkns _
  have hlast_ys : (w :: ys2).getLast? = some q.tailBlock := by
    have := h.last_ps
    rw [hps2, List.getLast?_cons_cons] at this
    exact this
  -- the next block is nonempty
  have hne_nb : (q.getBlock w).front ≠ (q.getBlock w).tail := by
    cases ys2 with
    | nil =>
      have hw_tb : w = q.tailBlock := by simpa using hlast_ys
      have := h.tail_ne (by rw [hps2]; simp)
      rw [← hw_tb] at this
      exact this
    | cons z zs =>
      have hfull : (q.getBlock w).isFull := by
        apply h.mids 1 w (by omega) (by rw [hps2]; simp)
        rw [hps2]
        rfl
      have hcnt := (Block.isFull_iff_count _ hnwf).mp hfull
      have hsz2 := Block.size_ge_two _ hnwf
      intro hc
      have := (Block.count_eq_zero_iff _ hnwf).mpr hc
      omega
  set nb2 : Block α := { q.getBlock w with
    front := (((q.getBlock w).front + 1) % (q.getBlock w).size),
    data := ((q.getBlock w).data.set (q.getBlock w).front none) } with hnb2
  set q2 : Queue α := { q.setBlock w nb2 with frontBlock := w } with hq2
  have hred : (try_dequeue q).2.2 = q2 := by
    rw [try_dequeue_caseB q hA hB]
    simp only [hnext_fb, hbridge]
  have hout : (try_dequeue q).2.1 = (q.getBlock w).data.getD (q.getBlock w).front none := by
    rw [try_dequeue_caseB q hA hB]
    simp only [hnext_fb]
  have hres : (try_dequeue q).1 = true := by
    rw [try_dequeue_caseB q hA hB]
  have hq2fb : q2.frontBlock = w := rfl
  have hq2tb : q2.tailBlock = q.tailBlock := rfl
  have hq2len : q2.blocks.length = q.blocks.length := q.length_setBlock _ _
  have hget_self : q2.getBlock w = nb2 := q.getBlock_setBlock_self _ _ hw_lt
  have hget_ne : ∀ i, i ≠ w → q2.getBlock i = q.getBlock i := by
    intro i hi
    exact q.getBlock_setBlock_ne _ _ _ (fun hc => hi hc.symm)
  have hnext_same : ∀ i, (q2.getBlock i).next = (q.getBlock i).next := by
    intro i
    by_cases hi : i = w
    · subst hi; rw [hget_self]
    · rw [hget_ne i hi]
  have hhead2 : (w :: ys2).head? = some q2.frontBlock := rfl
  have hlast2 : (w :: ys2).getLast? = some q2.tailBlock := hlast_ys
  have hassoc : (w :: ys2) ++ (es ++ [q.frontBlock])
      = ((w :: ys2) ++ es) ++ [q.frontBlock] := by
    rw [List.append_assoc]
  have hnodup2 : ((w :: ys2) ++ (es ++ [q.frontBlock])).Nodup := by
    rw [hassoc]
    refine List.nodup_append.mpr ⟨hnd_yses, by simp, ?_⟩
    intro a ha hb
    rw [List.mem_singleton.mp hb] at ha
    exact hfb_notin ha
  have hmem2 : ∀ i, i ∈ (w :: ys2) ++ (es ++ [q.frontBlock]) ↔ i < q2.blocks.length := by
    intro i
    have hold := h.mem_iff i
    rw [hps2] at hold
    rw [hq2len, ← hold]
    simp
    tauto
  have hchain_yses_q2 : List.Chain' (nextRel q2) ((w :: ys2) ++ es) := by
    apply chain'_next_congr q q2 _ (fun i _ => hnext_same i)
    have hc := h.chain
    rw [hps2] at hc
    exact (List.chain'_cons.mp hc).2
  have hysesl : ((w :: ys2) ++ es).getLast? = (ps ++ es).getLast? := by
    rw [hps2]
    show _ = (q.frontBlock :: ((w :: ys2) ++ es)).getLast?
    rw [List.getLast?_cons]
    cases hgl : ((w :: ys2) ++ es).getLast? with
    | none => simp at hgl
    | some a => simp
  have hboundary : ∀ x ∈ ((w :: ys2) ++ es).getLast?, nextRel q2 x q.frontBlock := by
    intro x hx
    have hx2 : (ps ++ es).getLast? = some x := by rw [← hysesl]; exact hx
    show (q2.getBlock x).next = q.frontBlock
    rw [hnext_same x]
    exact h.cycle x hx2
  have hchain2 : List.Chain' (nextRel q2) ((w :: ys2) ++ (es ++ [q.frontBlock])) := by
    rw [hassoc]
    refine List.chain'_append.mpr ⟨hchain_yses_q2, List.chain'_singleton _, ?_⟩
    intro x hx y hy
    have hy2 : y = q.frontBlock := by
      have h1 : ([q.frontBlock] : List Nat).head? = some y := hy
      simp at h1
      exact h1.symm
    subst hy2
    exact hboundary x hx
  have hcycle2 : ∀ x ∈ ((w :: ys2) ++ (es ++ [q.frontBlock])).getLast?,
      nextRel q2 x q2.frontBlock := by
    intro x hx
    have h1 : ((w :: ys2) ++ (es ++ [q.frontBlock])).getLast? = some q.frontBlock := by
      rw [hassoc]
      exact List.getLast?_concat _
    rw [h1] at hx
    have hx2 : x = q.frontBlock := (by simpa using hx : q.frontBlock = x).symm
    subst hx2
    show (q2.getBlock q.frontBlock).next = q2.frontBlock
    rw [hnext_same]
    exact hnext_fb
  have hwf2 : ∀ i, i < q2.blocks.length → (q2.getBlock i).wfb := by
    intro i hilt
    by_cases hi : i = w
    · subst hi
      rw [hget_self]
      exact ⟨by simp [hnb2, hnlen], ⟨kn, hkn0, hkns⟩, Nat.mod_lt _ hnsz, hntl⟩
    · rw [hget_ne i hi]
      exact h.wf i (by rw [hq2len] at hilt; omega)
  have hempties2 : ∀ i ∈ es ++ [q.frontBlock],
      (q2.getBlock i).front = (q2.getBlock i).tail := by
    intro i hi
    rcases List.mem_append.mp hi with hie | hif
    · have hi_ne_w : i ≠ w := by
        intro hc
        exact h.disj hw_mem_ps (hc ▸ hie)
      rw [hget_ne i hi_ne_w]
      exact h.empties i hie
    · have hifb : i = q.frontBlock := by simpa using hif
      subst hifb
      rw [hget_ne _ (fun hc => hw_ne_fb hc.symm)]
      exact hA2
  have hmids2 : ∀ j x, 0 < j → j + 1 < (w :: ys2).length → (w :: ys2)[j]? = some x →
      (q2.getBlock x).isFull := by
    intro j x hj0 hj hx
    have hold : ps[j + 1]? = some x := by
      rw [hps2, List.getElem?_cons_succ]
      exact hx
    have hx_ne_w : x ≠ w := by
      intro hc
      have h0 : (w :: ys2)[0]? = some w := by simp
      have h1 : (w :: ys2)[j]? = some w := by rw [hx, hc]
      have := nodup_getElem?_inj hnd_ys h1 h0
      omega
    rw [hget_ne x hx_ne_w]
    refine h.mids (j + 1) x (by omega) ?_ hold
    rw [hps2]
    simp at hj ⊢
    omega
  have htail_ne2 : 1 < (w :: ys2).length →
      (q2.getBlock q2.tailBlock).front ≠ (q2.getBlock q2.tailBlock).tail := by
    intro hlen2
    have htb_ne_w : q.tailBlock ≠ w := by
      intro hc
      have h0 : (w :: ys2)[0]? = some q.tailBlock := by rw [hc]; simp
      have hlastidx : (w :: ys2)[(w :: ys2).length - 1]? = some q.tailBlock := by
        rw [← List.getLast?_eq_getElem?]
        exact hlast_ys
      have hij := nodup_getElem?_inj hnd_ys hlastidx h0
      rw [List.length_cons] at hij hlen2
      omega
    show (q2.getBlock q.tailBlock).front ≠ (q2.getBlock q.tailBlock).tail
    rw [hget_ne _ htb_ne_w]
    refine h.tail_ne ?_
    rw [hps2]
    simp
  have hchain_ys2 : List.Chain' (nextRel q2) (w :: ys2) :=
    (List.chain'_append.mp hchain_yses_q2).1
  have hdrop2 : ∀ i ∈ (w :: ys2).dropLast, i ≠ q2.tailBlock := by
    intro i hi
    have hi_ps : i ∈ ps.dropLast := by
      rw [hps2, List.dropLast_cons₂]
      exact List.mem_cons_of_mem _ hi
    exact h.dropLast_ne_tail i hi_ps
  have hlen2q : (w :: ys2).length ≤ q2.blocks.length := by
    have := h.ps_length_le
    rw [hps2] at this
    rw [hq2len]
    simp at this ⊢
    omega
  have hpath2 : path q2 = w :: ys2 :=
    pathFrom_eq q2 (w :: ys2) q2.blocks.length q2.frontBlock hhead2 hlast2 hchain_ys2
      hdrop2 hlen2q
  have hempty_fb : (q.getBlock q.frontBlock).contentsO = [] :=
    Block.contentsO_empty _ hA2
  have hdeq_nb : (q.getBlock w).contentsO
      = (q.getBlock w).data.getD (q.getBlock w).front none :: nb2.contentsO :=
    Block.contentsO_deq _ hnwf hne_nb
  have hys2_same : ∀ i ∈ ys2,
      (fun j => (q2.getBlock j).contentsO) i = (fun j => (q.getBlock j).contentsO) i := by
    intro i hi
    have hi_ne_w : i ≠ w := by
      intro hc
      exact (List.nodup_cons.mp hnd_ys).1 (hc ▸ hi)
    show (q2.getBlock i).contentsO = (q.getBlock i).contentsO
    rw [hget_ne i hi_ne_w]
  have htl2 : toListO q2 = nb2.contentsO ++ ys2.flatMap (fun j => (q.getBlock j).contentsO) := by
    rw [toListO, hpath2]
    simp only [List.flatMap_cons]
    rw [hget_self, flatMap_congr_mem ys2 (fun j => (q2.getBlock j).contentsO)
      (fun j => (q.getBlock j).contentsO) hys2_same]
  have htoList : toListO q = (try_dequeue q).2.1 :: toListO q2 := by
    rw [h.toListO_eq, hps2]
    simp only [List.flatMap_cons]
    rw [hempty_fb, hdeq_nb, hout, htl2]
    rfl
  have hinv2 : InvOn q2 (w :: ys2) (es ++ [q.frontBlock]) := by
    refine ⟨hhead2, hlast2, hnodup2, hmem2, hchain2, hcycle2, hwf2, hempties2, hmids2,
      htail_ne2, h.lbs_pow, ?_⟩
    intro o ho
    apply h.filled
    rw [htoList]
    simp [ho]
  refine ⟨hres, ⟨w :: ys2, es ++ [q.frontBlock], by rw [hred]; exact hinv2⟩,
    by rw [hred]; exact htoList⟩

/-- Case C of dequeue: the queue is empty, nothing changes. -/
theorem dequeue_caseC_step {α : Type} {q : Queue α} {ps es : List Nat}
    (h : InvOn q ps es)
    (hA : ¬ (q.getBlock q.frontBlock).front ≠ (q.getBlock q.frontBlock).tail)
    (hB : ¬ q.frontBlock ≠ q.tailBlock) :
    try_dequeue q = (false, none, q) ∧ toListO q = [] := by
  have hA2 : (q.getBlock q.frontBlock).front = (q.getBlock q.frontBlock).tail :=
    not_ne_iff.mp hA
  have hB2 : q.frontBlock = q.tailBlock := not_ne_iff.mp hB
  refine ⟨try_dequeue_caseC q hA hB, ?_⟩
  obtain ⟨ys, hps⟩ := List.head?_eq_some_iff.mp h.head_ps
  have hys_nil : ys = [] := by
    cases ys with
    | nil => rfl
    | cons a t =>
      exfalso
      have hlast := h.last_ps
      rw [hps, List.getLast?_cons_cons, ← hB2] at hlast
      have hmem : q.frontBlock ∈ a :: t := List.mem_of_getLast?_eq_some hlast
      have hnd := h.ps_nodup
      rw [hps] at hnd
      exact (List.nodup_cons.mp hnd).1 hmem
  subst hys_nil
  rw [h.toListO_eq, hps]
  simp only [List.flatMap_cons, List.flatMap_nil, List.append_nil]
  exact Block.contentsO_empty _ hA2

/-- Any allocation-permitted enqueue succeeds, keeps the invariant, and
appends the element to the queue contents. -/
theorem enqueue_true_total {α : Type} {q : Queue α} {ps es : List Nat}
    (h : InvOn q ps es) (v : α) :
    (inner_enqueue true q v).1 = true ∧ Inv (inner_enqueue true q v).2 ∧
    toListO (inner_enqueue true q v).2 = toListO q ++ [some v] := by
  by_cases hA : ((q.getBlock q.tailBlock).tail + 1) &&& (q.getBlock q.tailBlock).sizeMask
      ≠ (q.getBlock q.tailBlock).front
  · obtain ⟨h1, h2, h3⟩ := enqueue_caseA_step h v true hA
    exact ⟨h1, ⟨ps, es, h2⟩, h3⟩
  · by_cases hB : (q.getBlock q.tailBlock).next ≠ q.frontBlock
    · obtain ⟨h1, h2, h3⟩ := enqueue_caseB_step h v true hA hB
      exact ⟨h1, h2, h3⟩
    · obtain ⟨h1, h2, h3⟩ := enqueue_caseC_step h v hA hB
      exact ⟨h1, h2, h3⟩

/-- A `try_enqueue` either succeeds exactly like `enqueue` without
allocating, or fails and leaves the queue untouched. -/
theorem try_enqueue_total {α : Type} {q : Queue α} {ps es : List Nat}
    (h : InvOn q ps es) (v : α) :
    ((inner_enqueue false q v).1 = true → Inv (inner_enqueue false q v).2 ∧
      toListO (inner_enqueue false q v).2 = toListO q ++ [some v]) ∧
    ((inner_enqueue false q v).1 = false → (inner_enqueue false q v).2 = q) := by
  by_cases hA : ((q.getBlock q.tailBlock).tail + 1) &&& (q.getBlock q.tailBlock).sizeMask
      ≠ (q.getBlock q.tailBlock).front
  · obtain ⟨h1, h2, h3⟩ := enqueue_caseA_step h v false hA
    exact ⟨fun _ => ⟨⟨ps, es, h2⟩, h3⟩, fun hc => by rw [h1] at hc; cases hc⟩
  · by_cases hB : (q.getBlock q.tailBlock).next ≠ q.frontBlock
    · obtain ⟨h1, h2, h3⟩ := enqueue_caseB_step h v false hA hB
      exact ⟨fun _ => ⟨h2, h3⟩, fun hc => by rw [h1] at hc; cases hc⟩
    · have hred := inner_enqueue_fail q v hA hB
      refine ⟨fun hc => ?_, fun _ => by rw [hred]⟩
      rw [hred] at hc
      cases hc

/-- A `try_dequeue` either removes and returns the head of the contents,
or reports the queue empty and leaves everything untouched. -/
theorem try_dequeue_total {α : Type} {q : Queue α} {ps es : List Nat}
    (h : InvOn q ps es) :
    ((try_dequeue q).1 = true → Inv (try_dequeue q).2.2 ∧
      toListO q = (try_dequeue q).2.1 :: toListO (try_dequeue q).2.2) ∧
    ((try_dequeue q).1 = false → (try_dequeue q).2.2 = q ∧ (try_dequeue q).2.1 = none ∧
      toListO q = []) := by
  by_cases hA : (q.getBlock q.frontBlock).front ≠ (q.getBlock q.frontBlock).tail
  · obtain ⟨h1, h2, h3⟩ := dequeue_caseA_step h hA
    exact ⟨fun _ => ⟨h2, h3⟩, fun hc => by rw [h1] at hc; cases hc⟩
  · by_cases hB : q.frontBlock ≠ q.tailBlock
    · obtain ⟨h1, h2, h3⟩ := dequeue_caseB_step h hA hB
      exact ⟨fun _ => ⟨h2, h3⟩, fun hc => by rw [h1] at hc; cases hc⟩
    · obtain ⟨hred, hnil⟩ := dequeue_caseC_step h hA hB
      refine ⟨fun hc => ?_, fun _ => by rw [hred]; exact ⟨rfl, rfl, hnil⟩⟩
      rw [hred] at hc
      cases hc

/-- The freshly constructed queue satisfies the invariant with the
single self-linked block as the whole ring. -/
theorem newQueue_invOn {α : Type} (m : Nat) (h1 : 1 ≤ m) (h2 : m + 1 ≤ 2 ^ 63) :
    InvOn (newQueue α m) [0] [] := by
  obtain ⟨⟨k, hk0, hkeq⟩, hge, hmin⟩ := ceilToPow2_least m h1 h2
  have hsz2 : 2 ≤ ceilToPow2 (m + 1) := by omega
  have hblocks : (newQueue α m).blocks = [mkBlock α (ceilToPow2 (m + 1)) 0] := rfl
  have hget0 : (newQueue α m).getBlock 0 = mkBlock α (ceilToPow2 (m + 1)) 0 := rfl
  have hempty0 : ((newQueue α m).getBlock 0).contentsO = [] :=
    Block.contentsO_empty _ rfl
  refine ⟨rfl, rfl, by simp, ?_, ?_, ?_, ?_, ?_, ?_, ?_, ?_, ?_⟩
  · intro i
    rw [hblocks]
    constructor
    · intro hi
      have : i = 0 := by simpa using hi
      simp [this]
    · intro hi
      simp at hi
      simp [hi]
  · exact List.chain'_singleton 0
  · intro x hx
    have hx0 : x = 0 := (by simpa using hx : (0 : Nat) = x).symm
    subst hx0
    show ((newQueue α m).getBlock 0).next = 0
    rw [hget0]
    rfl
  · intro i hi
    rw [hblocks] at hi
    have hi0 : i = 0 := by simpa using hi
    subst hi0
    rw [hget0]
    refine ⟨by simp [mkBlock], ⟨k, hk0, hkeq⟩, by show 0 < ceilToPow2 (m + 1); omega,
      by show 0 < ceilToPow2 (m + 1); omega⟩
  · intro i hi
    cases hi
  · intro j x hj0 hj hx
    simp at hj
  · intro hc
    simp at hc
  · exact ⟨k, hk0, hkeq⟩
  · intro o ho
    have hpath : path (newQueue α m) = [0] := by
      rw [path, hblocks]
      rfl
    rw [toListO, hpath] at ho
    simp only [List.flatMap_cons, List.flatMap_nil, List.append_nil] at ho
    rw [hempty0] at ho
    cases ho

/-- A fresh queue is logically empty. -/
theorem toListO_newQueue {α : Type} (m : Nat) : toListO (newQueue α m) = [] := by
  have hpath : path (newQueue α m) = [0] := by
    rw [path]
    rfl
  rw [toListO, hpath]
  simp only [List.flatMap_cons, List.flatMap_nil, List.append_nil]
  exact Block.contentsO_empty _ rfl

/-- Every reachable state satisfies the master invariant. -/
theorem reachable_Inv {α : Type} {q : Queue α} (h : Reachable q) : Inv q := by
  induction h with
  | init m h1 h2 => exact ⟨[0], [], newQueue_invOn m h1 h2⟩
  | enq q v hr ih =>
    obtain ⟨ps, es, hOn⟩ := ih
    exact (enqueue_true_total hOn v).2.1
  | tryEnq q v hr ih =>
    obtain ⟨ps, es, hOn⟩ := ih
    by_cases hres : (inner_enqueue false q v).1 = true
    · exact ((try_enqueue_total hOn v).1 hres).1
    · have hq := (try_enqueue_total hOn v).2 (by simpa using hres)
      rw [hq]
      exact ⟨ps, es, hOn⟩
  | deq q hr ih =>
    obtain ⟨ps, es, hOn⟩ := ih
    by_cases hres : (try_dequeue q).1 = true
    · exact ((try_dequeue_total hOn).1 hres).1
    · have hq := ((try_dequeue_total hOn).2 (by simpa using hres)).1
      rw [hq]
      exact ⟨ps, es, hOn⟩

/-- Conservation along any operation sequence: the values enqueued so
far are the dequeued values followed by what is still in the queue. -/
theorem run_traces {α : Type} : ∀ (ops : List (Op α)) (q : Queue α), Inv q →
    Inv (run q ops) ∧
    toListO q ++ (traces q ops).1.map some = (traces q ops).2 ++ toListO (run q ops) := by
  intro ops
  induction ops with
  | nil => intro q hI; exact ⟨hI, by simp [run, traces]⟩
  | cons op ops ih =>
    intro q hI
    obtain ⟨ps, es, hOn⟩ := hI
    cases op with
    | enq v =>
      obtain ⟨hres, hI2, htl⟩ := enqueue_true_total hOn v
      obtain ⟨hI3, heq⟩ := ih (inner_enqueue true q v).2 hI2
      refine ⟨hI3, ?_⟩
      simp only [traces, run, step, hres, if_true, List.map_cons]
      rw [show toListO q ++ some v :: ((traces (inner_enqueue true q v).2 ops).1.map some)
        = (toListO q ++ [some v]) ++ ((traces (inner_enqueue true q v).2 ops).1.map some)
        by simp]
      rw [← htl, heq]
    | tryEnq v =>
      by_cases hres : (inner_enqueue false q v).1 = true
      · obtain ⟨hI2, htl⟩ := (try_enqueue_total hOn v).1 hres
        obtain ⟨hI3, heq⟩ := ih (inner_enqueue false q v).2 hI2
        refine ⟨hI3, ?_⟩
        simp only [traces, run, step, hres, if_true, List.map_cons]
        rw [show toListO q ++ some v :: ((traces (inner_enqueue false q v).2 ops).1.map some)
          = (toListO q ++ [some v]) ++ ((traces (inner_enqueue false q v).2 ops).1.map some)
          by simp]
        rw [← htl, heq]
      · have hres2 : (inner_enqueue false q v).1 = false := by simpa using hres
        have hq := (try_enqueue_total hOn v).2 hres2
        obtain ⟨hI3, heq⟩ := ih (inner_enqueue false q v).2 (by rw [hq]; exact ⟨ps, es, hOn⟩)
        refine ⟨hI3, ?_⟩
        simp only [traces, run, step, hres2, if_false, Bool.false_eq_true]
        rw [hq] at heq ⊢
        exact heq
    | tryDeq =>
      by_cases hres : (try_dequeue q).1 = true
      · obtain ⟨hI2, htl⟩ := (try_dequeue_total hOn).1 hres
        obtain ⟨hI3, heq⟩ := ih (try_dequeue q).2.2 hI2
        refine ⟨hI3, ?_⟩
        simp only [traces, run, step, hres, if_true]
        rw [htl]
        show ((try_dequeue q).2.1 :: toListO (try_dequeue q).2.2)
          ++ ((traces (try_dequeue q).2.2 ops).1.map some) = _
        rw [List.cons_append, heq]
        rfl
      · have hres2 : (try_dequeue q).1 = false := by simpa using hres
        obtain ⟨hq, hout, hnil⟩ := (try_dequeue_total hOn).2 hres2
        obtain ⟨hI3, heq⟩ := ih (try_dequeue q).2.2 (by rw [hq]; exact ⟨ps, es, hOn⟩)
        refine ⟨hI3, ?_⟩
        simp only [traces, run, step, hres2, if_false, Bool.false_eq_true]
        rw [hq] at heq ⊢
        exact heq

/-! ### The claims -/

/-- C3: `try_enqueue` never allocates a block and never modifies
`largestBlockSize`; it returns false exactly when the tail block is full
(`(tail + 1) & sizeMask == front`) and the tail block's `next` is
`frontBlock`; on failure the whole queue state is unchanged. -/
theorem claim_C3 {α : Type} (q : Queue α) (v : α) :
    (inner_enqueue false q v).2.blocks.length = q.blocks.length ∧
    (inner_enqueue false q v).2.largestBlockSize = q.largestBlockSize ∧
    ((inner_enqueue false q v).1 = false ↔
      (((q.getBlock q.tailBlock).tail + 1) &&& (q.getBlock q.tailBlock).sizeMask
        = (q.getBlock q.tailBlock).front ∧
       (q.getBlock q.tailBlock).next = q.frontBlock)) ∧
    ((inner_enqueue false q v).1 = false → (inner_enqueue false q v).2 = q) := by
  by_cases hA : ((q.getBlock q.tailBlock).tail + 1) &&& (q.getBlock q.tailBlock).sizeMask
      ≠ (q.getBlock q.tailBlock).front
  · rw [inner_enqueue_caseA false q v hA]
    refine ⟨q.length_setBlock _ _, rfl, ?_, ?_⟩
    · constructor
      · intro hc; cases hc
      · rintro ⟨h1, -⟩; exact absurd h1 hA
    · intro hc; cases hc
  · by_cases hB : (q.getBlock q.tailBlock).next ≠ q.frontBlock
    · rw [inner_enqueue_caseB false q v hA hB]
      refine ⟨q.length_setBlock _ _, rfl, ?_, ?_⟩
      · constructor
        · intro hc; cases hc
        · rintro ⟨-, h2⟩; exact absurd h2 hB
      · intro hc; cases hc
    · rw [inner_enqueue_fail q v hA hB]
      exact ⟨rfl, rfl, ⟨fun _ => ⟨not_ne_iff.mp hA, not_ne_iff.mp hB⟩, fun _ => rfl⟩,
        fun _ => rfl⟩

/-- C7: when the tail block is full and its `next` is `frontBlock`, an
allocation-permitted enqueue doubles `largestBlockSize`, allocates
exactly one new block of the doubled size with the element at slot 0 and
tail 1, splices it after the old tail block, and makes it the new
`tailBlock`; successive growths therefore double the block size each
time. -/
theorem claim_C7 {α : Type} (q : Queue α) (v : α)
    (hFull : ((q.getBlock q.tailBlock).tail + 1) &&& (q.getBlock q.tailBlock).sizeMask
      = (q.getBlock q.tailBlock).front)
    (hNext : (q.getBlock q.tailBlock).next = q.frontBlock)
    (htb : q.tailBlock < q.blocks.length) (hlbs : 0 < q.largestBlockSize) :
    (inner_enqueue true q v).1 = true ∧
    (inner_enqueue true q v).2.largestBlockSize = 2 * q.largestBlockSize ∧
    (inner_enqueue true q v).2.blocks.length = q.blocks.length + 1 ∧
    (inner_enqueue true q v).2.tailBlock = q.blocks.length ∧
    (inner_enqueue true q v).2.frontBlock = q.frontBlock ∧
    ((inner_enqueue true q v).2.getBlock q.blocks.length).size = 2 * q.largestBlockSize ∧
    ((inner_enqueue true q v).2.getBlock q.blocks.length).front = 0 ∧
    ((inner_enqueue true q v).2.getBlock q.blocks.length).tail = 1 ∧
    ((inner_enqueue true q v).2.getBlock q.blocks.length).data.getD 0 none = some v ∧
    ((inner_enqueue true q v).2.getBlock q.blocks.length).next
      = (q.getBlock q.tailBlock).next ∧
    ((inner_enqueue true q v).2.getBlock q.tailBlock).next = q.blocks.length := by
  have hA : ¬ ((q.getBlock q.tailBlock).tail + 1) &&& (q.getBlock q.tailBlock).sizeMask
      ≠ (q.getBlock q.tailBlock).front := not_ne_iff.mpr hFull
  have hB : ¬ (q.getBlock q.tailBlock).next ≠ q.frontBlock := not_ne_iff.mpr hNext
  rw [inner_enqueue_caseC q v hA hB]
  set tb2 : Block α := { q.getBlock q.tailBlock with next := q.blocks.length } with htb2
  set nb : Block α := {
    front := 0, tail := 1, next := (q.getBlock q.tailBlock).next,
    data := ((List.replicate (q.largestBlockSize * 2) (none : Option α)).set 0 (some v)),
    size := q.largestBlockSize * 2 } with hnb
  set q2 : Queue α := {
    blocks := ((q.blocks.set q.tailBlock tb2) ++ [nb]),
    frontBlock := q.frontBlock, tailBlock := q.blocks.length,
    largestBlockSize := q.largestBlockSize * 2 } with hq2
  have hget_n : q2.getBlock q.blocks.length = nb := by
    show (((q.blocks.set q.tailBlock tb2 ++ [nb])[q.blocks.length]?).getD _) = _
    rw [List.getElem?_append_right (by simp)]
    simp
  have hget_tb : q2.getBlock q.tailBlock = tb2 := by
    show (((q.blocks.set q.tailBlock tb2 ++ [nb])[q.tailBlock]?).getD _) = _
    rw [List.getElem?_append_left (by simpa using htb),
      List.getElem?_set_self (by simpa using htb)]
    rfl
  refine ⟨rfl, by show q.largestBlockSize * 2 = 2 * q.largestBlockSize; omega,
    by show (q.blocks.set q.tailBlock tb2 ++ [nb]).length = q.blocks.length + 1; simp,
    rfl, rfl, ?_, ?_, ?_, ?_, ?_, ?_⟩
  · rw [hget_n]; show q.largestBlockSize * 2 = 2 * q.largestBlockSize; omega
  · rw [hget_n]
  · rw [hget_n]
  · rw [hget_n]
    show ((List.replicate (q.largestBlockSize * 2) (none : Option α)).set 0 (some v)).getD 0 none
      = some v
    rw [getD_set_self _ _ _ _ (by simp; omega)]
  · rw [hget_n]
  · rw [hget_tb]

/-- C4: the constructor creates exactly one block whose size is the
least power of two at least `maxSize + 1` (a power of two at least 2),
with `front = tail = 0`, `next` pointing to the block itself,
`frontBlock = tailBlock` that block, and `largestBlockSize` that size. -/
theorem claim_C4 (α : Type) (maxSize : Nat) (h1 : 1 ≤ maxSize)
    (h2 : maxSize + 1 ≤ 2 ^ 63) :
    (newQueue α maxSize).blocks.length = 1 ∧
    ((newQueue α maxSize).getBlock 0).size = ceilToPow2 (maxSize + 1) ∧
    (∃ k, 0 < k ∧ ceilToPow2 (maxSize + 1) = 2 ^ k) ∧
    2 ≤ ceilToPow2 (maxSize + 1) ∧
    maxSize + 1 ≤ ceilToPow2 (maxSize + 1) ∧
    (∀ j, maxSize + 1 ≤ 2 ^ j → ceilToPow2 (maxSize + 1) ≤ 2 ^ j) ∧
    ((newQueue α maxSize).getBlock 0).front = 0 ∧
    ((newQueue α maxSize).getBlock 0).tail = 0 ∧
    ((newQueue α maxSize).getBlock 0).next = 0 ∧
    ((newQueue α maxSize).getBlock 0).data.length = ceilToPow2 (maxSize + 1) ∧
    (newQueue α maxSize).frontBlock = 0 ∧
    (newQueue α maxSize).tailBlock = 0 ∧
    (newQueue α maxSize).largestBlockSize = ceilToPow2 (maxSize + 1) := by
  obtain ⟨⟨k, hk0, hkeq⟩, hge, hmin⟩ := ceilToPow2_least maxSize h1 h2
  refine ⟨rfl, rfl, ⟨k, hk0, hkeq⟩, by omega, hge, hmin, rfl, rfl, rfl, ?_, rfl, rfl, rfl⟩
  show (List.replicate (ceilToPow2 (maxSize + 1)) (none : Option α)).length = _
  simp

/-- Witness for C4 at `maxSize = 100`. -/
theorem claim_C4_witness :
    (newQueue Nat 100).blocks.length = 1 ∧
    ((newQueue Nat 100).getBlock 0).size = ceilToPow2 101 ∧
    (∃ k, 0 < k ∧ ceilToPow2 101 = 2 ^ k) ∧
    2 ≤ ceilToPow2 101 ∧
    101 ≤ ceilToPow2 101 ∧
    (∀ j, 101 ≤ 2 ^ j → ceilToPow2 101 ≤ 2 ^ j) ∧
    ((newQueue Nat 100).getBlock 0).front = 0 ∧
    ((newQueue Nat 100).getBlock 0).tail = 0 ∧
    ((newQueue Nat 100).getBlock 0).next = 0 ∧
    ((newQueue Nat 100).getBlock 0).data.length = ceilToPow2 101 ∧
    (newQueue Nat 100).frontBlock = 0 ∧
    (newQueue Nat 100).tailBlock = 0 ∧
    (newQueue Nat 100).largestBlockSize = ceilToPow2 101 :=
  claim_C4 Nat 100 (by decide) (by decide)

/-- Witness for C3 on a full capacity-1 queue: the failing
`try_enqueue` leaves the queue untouched. -/
theorem claim_C3_witness :
    (inner_enqueue false (run (newQueue Nat 1) [Op.enq 5]) 7).2
      = run (newQueue Nat 1) [Op.enq 5] :=
  (claim_C3 (run (newQueue Nat 1) [Op.enq 5]) 7).2.2.2 (by decide)

/-- Witness for C7 on a full capacity-1 queue: growth doubles the block
size and installs the new block as tail. -/
theorem claim_C7_witness :
    (inner_enqueue true (run (newQueue Nat 1) [Op.enq 5]) 7).1 = true ∧
    (inner_enqueue true (run (newQueue Nat 1) [Op.enq 5]) 7).2.largestBlockSize
      = 2 * (run (newQueue Nat 1) [Op.enq 5]).largestBlockSize ∧
    (inner_enqueue true (run (newQueue Nat 1) [Op.enq 5]) 7).2.blocks.length
      = (run (newQueue Nat 1) [Op.enq 5]).blocks.length + 1 ∧
    (inner_enqueue true (run (newQueue Nat 1) [Op.enq 5]) 7).2.tailBlock
      = (run (newQueue Nat 1) [Op.enq 5]).blocks.length ∧
    (inner_enqueue true (run (newQueue Nat 1) [Op.enq 5]) 7).2.frontBlock
      = (run (newQueue Nat 1) [Op.enq 5]).frontBlock ∧
    ((inner_enqueue true (run (newQueue Nat 1) [Op.enq 5]) 7).2.getBlock
        (run (newQueue Nat 1) [Op.enq 5]).blocks.length).size
      = 2 * (run (newQueue Nat 1) [Op.enq 5]).largestBlockSize ∧
    ((inner_enqueue true (run (newQueue Nat 1) [Op.enq 5]) 7).2.getBlock
        (run (newQueue Nat 1) [Op.enq 5]).blocks.length).front = 0 ∧
    ((inner_enqueue true (run (newQueue Nat 1) [Op.enq 5]) 7).2.getBlock
        (run (newQueue Nat 1) [Op.enq 5]).blocks.length).tail = 1 ∧
    ((inner_enqueue true (run (newQueue Nat 1) [Op.enq 5]) 7).2.getBlock
        (run (newQueue Nat 1) [Op.enq 5]).blocks.length).data.getD 0 none = some 7 ∧
    ((inner_enqueue true (run (newQueue Nat 1) [Op.enq 5]) 7).2.getBlock
        (run (newQueue Nat 1) [Op.enq 5]).blocks.length).next
      = ((run (newQueue Nat 1) [Op.enq 5]).getBlock
          (run (newQueue Nat 1) [Op.enq 5]).tailBlock).next ∧
    ((inner_enqueue true (run (newQueue Nat 1) [Op.enq 5]) 7).2.getBlock
        (run (newQueue Nat 1) [Op.enq 5]).tailBlock).next
      = (run (newQueue Nat 1) [Op.enq 5]).blocks.length :=
  claim_C7 (run (newQueue Nat 1) [Op.enq 5]) 7 (by decide) (by decide) (by decide) (by decide)

/-- C10: the constructor's capacity hint defaults to 15: with no
argument the queue has one block of size 16, `try_enqueue` succeeds on
the fresh queue, 15 consecutive `try_enqueue`s all succeed, and the
16th fails. -/
theorem claim_C10 :
    newQueue Nat = newQueue Nat 15 ∧
    (newQueue Nat).blocks.length = 1 ∧
    ((newQueue Nat).getBlock 0).size = 16 ∧
    (newQueue Nat).largestBlockSize = 16 ∧
    (try_enqueue (newQueue Nat) 0).1 = true ∧
    (traces (newQueue Nat) (List.replicate 15 (Op.tryEnq 7))).1.length = 15 ∧
    (inner_enqueue false (run (newQueue Nat) (List.replicate 15 (Op.tryEnq 7))) 7).1
      = false := by
  refine ⟨rfl, rfl, by decide, by decide, by decide, ?_, ?_⟩ <;>
    · set_option maxRecDepth 4000 in decide

/-- C5 (the destructor bug): with capacity hint 1, after enqueuing 10
and 20 the queue holds both values in two blocks, but the destructor
walk destroys only the element of the first block and frees only that
block, because the do-while loop stops when the advanced pointer equals
the `tailBlock` snapshot, before processing the tail block. -/
theorem claim_C5 :
    toListO exampleQ5 = [some 10, some 20] ∧
    exampleQ5.blocks.length = 2 ∧
    destructorDestroyed exampleQ5 = [some 10] ∧
    destructorFreed exampleQ5 = [0] := by
  refine ⟨by decide, by decide, by decide, by decide⟩

/-- C1: FIFO conservation: for any operation sequence on a fresh queue
the successfully enqueued values are exactly the successfully dequeued
values followed by the remaining contents, in order; in particular the
literal 100-element scenario dequeues 0..99 in order with all 100
`try_dequeue`s succeeding. -/
theorem claim_C1 :
    (∀ (α : Type) (m : Nat) (ops : List (Op α)), 1 ≤ m → m + 1 ≤ 2 ^ 63 →
      (traces (newQueue α m) ops).1.map some
        = (traces (newQueue α m) ops).2 ++ toListO (run (newQueue α m) ops)) ∧
    traces (newQueue Nat 100) enq100deq100
      = (List.range 100, (List.range 100).map some) ∧
    toListO (run (newQueue Nat 100) enq100deq100) = [] := by
  have huniv : ∀ (α : Type) (m : Nat) (ops : List (Op α)), 1 ≤ m → m + 1 ≤ 2 ^ 63 →
      (traces (newQueue α m) ops).1.map some
        = (traces (newQueue α m) ops).2 ++ toListO (run (newQueue α m) ops) := by
    intro α m ops h1 h2
    have hI : Inv (newQueue α m) := ⟨[0], [], newQueue_invOn m h1 h2⟩
    have heq := (run_traces ops (newQueue α m) hI).2
    rw [toListO_newQueue] at heq
    simpa using heq
  have htr : traces (newQueue Nat 100) enq100deq100
      = (List.range 100, (List.range 100).map some) := by
    set_option maxRecDepth 10000 in decide
  refine ⟨huniv, htr, ?_⟩
  have heq := huniv Nat 100 enq100deq100 (by omega) (by norm_num)
  rw [htr] at heq
  have heq2 : (List.range 100).map some
      = (List.range 100).map some
        ++ toListO (run (newQueue Nat 100) enq100deq100) := heq
  have hlen := congrArg List.length heq2
  rw [List.length_append] at hlen
  have h0 : (toListO (run (newQueue Nat 100) enq100deq100)).length = 0 := by
    omega
  exact List.eq_nil_of_length_eq_zero h0

/-- Witness for C1's universal part on a two-operation sequence. -/
theorem claim_C1_witness :
    (traces (newQueue Nat 1) [Op.enq 5, Op.tryDeq]).1.map some
      = (traces (newQueue Nat 1) [Op.enq 5, Op.tryDeq]).2
        ++ toListO (run (newQueue Nat 1) [Op.enq 5, Op.tryDeq]) :=
  claim_C1.1 Nat 1 [Op.enq 5, Op.tryDeq] (by decide) (by decide)

/-- C8: in every reachable state the ring is intact: `tailBlock` is
reachable from `frontBlock` along `next`, the walk continues from
`tailBlock` back around to `frontBlock`, and every block strictly
between `frontBlock` and `tailBlock` in ring order is completely
full. -/
theorem claim_C8 {α : Type} (q : Queue α) (h : Reachable q) : RingOk q := by
  obtain ⟨ps, es, hOn⟩ := reachable_Inv h
  exact ⟨ps, es, hOn.head_ps, hOn.last_ps, hOn.chain, hOn.cycle, hOn.mids⟩

/-- Every state produced by a run of operations is reachable. -/
theorem reachable_run {α : Type} : ∀ (ops : List (Op α)) (q : Queue α),
    Reachable q → Reachable (run q ops)
  | [], _, h => h
  | op :: ops, q, h => by
    show Reachable (run (step q op) ops)
    apply reachable_run
    cases op with
    | enq v => exact Reachable.enq q v h
    | tryEnq v => exact Reachable.tryEnq q v h
    | tryDeq => exact Reachable.deq q h

/-- Witness for C8 on a one-element queue. -/
theorem claim_C8_witness : RingOk (run (newQueue Nat 1) [Op.enq 5]) :=
  claim_C8 _ (reachable_run [Op.enq 5] _ (Reachable.init 1 (by decide) (by decide)))

/-- C6 as stated is false: in the reachable state `exampleQ6` the tail
block is full and its `next` is not `frontBlock` (Case B), the next
block is empty with `front = tail = 1`, yet the enqueue constructs the
element at slot 1 (not slot 0) and sets that block's tail to 0 (not 1).
-/
theorem claim_C6_counterexample :
    (((exampleQ6.getBlock exampleQ6.tailBlock).tail + 1)
        &&& (exampleQ6.getBlock exampleQ6.tailBlock).sizeMask
      = (exampleQ6.getBlock exampleQ6.tailBlock).front) ∧
    (exampleQ6.getBlock exampleQ6.tailBlock).next ≠ exampleQ6.frontBlock ∧
    ¬ ((inner_enqueue true exampleQ6 99).2.getBlock
        (inner_enqueue true exampleQ6 99).2.tailBlock).tail = 1 ∧
    ((inner_enqueue true exampleQ6 99).2.getBlock
        (inner_enqueue true exampleQ6 99).2.tailBlock).data.getD 0 none = none ∧
    ((inner_enqueue true exampleQ6 99).2.getBlock
        (inner_enqueue true exampleQ6 99).2.tailBlock).data.getD 1 none = some 99 := by
  refine ⟨by decide, by decide, by decide, by decide, by decide⟩

/-- C6 amended: in Case B the next block's `front` and `tail` are equal
(it is empty), the element is constructed at slot `next.tail` (the
block's current position, not necessarily 0), the block's `tail`
advances by one modulo its size, and that block becomes `tailBlock`. -/
theorem claim_C6_amended {α : Type} (q : Queue α) (h : Reachable q) (v : α)
    (hFull : ((q.getBlock q.tailBlock).tail + 1) &&& (q.getBlock q.tailBlock).sizeMask
      = (q.getBlock q.tailBlock).front)
    (hNext : (q.getBlock q.tailBlock).next ≠ q.frontBlock) :
    ((q.getBlock (q.getBlock q.tailBlock).next).front
      = (q.getBlock (q.getBlock q.tailBlock).next).tail) ∧
    (inner_enqueue true q v).1 = true ∧
    (inner_enqueue true q v).2.tailBlock = (q.getBlock q.tailBlock).next ∧
    ((inner_enqueue true q v).2.getBlock (q.getBlock q.tailBlock).next).tail
      = (((q.getBlock (q.getBlock q.tailBlock).next).tail + 1)
        % (q.getBlock (q.getBlock q.tailBlock).next).size) ∧
    ((inner_enqueue true q v).2.getBlock (q.getBlock q.tailBlock).next).data.getD
      (q.getBlock (q.getBlock q.tailBlock).next).tail none = some v := by
  obtain ⟨ps, es, hOn⟩ := reachable_Inv h
  have hA : ¬ ((q.getBlock q.tailBlock).tail + 1) &&& (q.getBlock q.tailBlock).sizeMask
      ≠ (q.getBlock q.tailBlock).front := not_ne_iff.mpr hFull
  obtain ⟨e, es2, hes, hnexttb⟩ := hOn.caseB_es hNext
  have he_mem : e ∈ es := by rw [hes]; simp
  have hempty : (q.getBlock e).front = (q.getBlock e).tail := hOn.empties e he_mem
  have he_lt : e < q.blocks.length := (hOn.mem_iff e).mp (by simp [he_mem])
  obtain ⟨helen, ⟨ke, hke0, hkes⟩, hefr, hetl⟩ := hOn.wf e he_lt
  have hbridge : ((q.getBlock e).tail + 1) &&& (q.getBlock e).sizeMask
      = ((q.getBlock e).tail + 1) % (q.getBlock e).size := and_sizeMask _ ke hkes _
  rw [inner_enqueue_caseB true q v hA hNext, hnexttb]
  set nb2 : Block α := { q.getBlock e with
    data := ((q.getBlock e).data.set (q.getBlock e).tail (some v)),
    tail := (((q.getBlock e).tail + 1) &&& (q.getBlock e).sizeMask) } with hnb2
  have hself : ({ q.setBlock e nb2 with tailBlock := e } : Queue α).getBlock e = nb2 :=
    q.getBlock_setBlock_self e nb2 he_lt
  refine ⟨hempty, rfl, rfl, ?_, ?_⟩
  · show (({ q.setBlock e nb2 with tailBlock := e } : Queue α).getBlock e).tail = _
    rw [hself]
    exact hbridge
  · show (({ q.setBlock e nb2 with tailBlock := e } : Queue α).getBlock e).data.getD
      (q.getBlock e).tail none = some v
    rw [hself]
    show ((q.getBlock e).data.set (q.getBlock e).tail (some v)).getD
      (q.getBlock e).tail none = some v
    rw [getD_set_self _ _ _ _ (by rw [helen]; exact hetl)]

/-- Witness for the amended C6 on the concrete Case B state. -/
theorem claim_C6_amended_witness :
    ((exampleQ6.getBlock (exampleQ6.getBlock exampleQ6.tailBlock).next).front
      = (exampleQ6.getBlock (exampleQ6.getBlock exampleQ6.tailBlock).next).tail) ∧
    (inner_enqueue true exampleQ6 99).1 = true ∧
    (inner_enqueue true exampleQ6 99).2.tailBlock
      = (exampleQ6.getBlock exampleQ6.tailBlock).next ∧
    ((inner_enqueue true exampleQ6 99).2.getBlock
        (exampleQ6.getBlock exampleQ6.tailBlock).next).tail
      = (((exampleQ6.getBlock (exampleQ6.getBlock exampleQ6.tailBlock).next).tail + 1)
        % (exampleQ6.getBlock (exampleQ6.getBlock exampleQ6.tailBlock).next).size) ∧
    ((inner_enqueue true exampleQ6 99).2.getBlock
        (exampleQ6.getBlock exampleQ6.tailBlock).next).data.getD
      (exampleQ6.getBlock (exampleQ6.getBlock exampleQ6.tailBlock).next).tail none
      = some 99 :=
  claim_C6_amended exampleQ6
    (reachable_run exampleOpsC6 _ (Reachable.init 1 (by decide) (by decide))) 99
    (by decide) (by decide)

/-- C2: `try_dequeue` returns false exactly when the front block is
empty and is the tail block, equivalently when the queue holds no
elements; on failure it changes nothing and assigns nothing; on success
it moves the oldest element (a constructed value) into the result, runs
the destructor in its slot (the slot becomes empty), and advances that
block's front index by one modulo the block size. -/
theorem claim_C2 {α : Type} (q : Queue α) (h : Reachable q) :
    ((try_dequeue q).1 = false ↔
      ((q.getBlock q.frontBlock).front = (q.getBlock q.frontBlock).tail ∧
        q.frontBlock = q.tailBlock)) ∧
    ((try_dequeue q).1 = false ↔ toListO q = []) ∧
    ((try_dequeue q).1 = false → (try_dequeue q).2.2 = q ∧ (try_dequeue q).2.1 = none) ∧
    ((try_dequeue q).1 = true →
      toListO q = (try_dequeue q).2.1 :: toListO (try_dequeue q).2.2 ∧
      (∃ v, (try_dequeue q).2.1 = some v) ∧
      ((try_dequeue q).2.2.getBlock (try_dequeue q).2.2.frontBlock).front
        = (((q.getBlock (try_dequeue q).2.2.frontBlock).front + 1)
          % (q.getBlock (try_dequeue q).2.2.frontBlock).size) ∧
      ((try_dequeue q).2.2.getBlock (try_dequeue q).2.2.frontBlock).data.getD
        ((q.getBlock (try_dequeue q).2.2.frontBlock).front) none = none) := by
  obtain ⟨ps, es, hOn⟩ := reachable_Inv h
  by_cases hA : (q.getBlock q.frontBlock).front ≠ (q.getBlock q.frontBlock).tail
  · obtain ⟨hres, -, h3⟩ := dequeue_caseA_step hOn hA
    obtain ⟨hflen, ⟨kf, hkf0, hkfs⟩, hffr, hftl⟩ := hOn.wf q.frontBlock hOn.fb_lt
    have hbridge : ((q.getBlock q.frontBlock).front + 1) &&& (q.getBlock q.frontBlock).sizeMask
        = ((q.getBlock q.frontBlock).front + 1) % (q.getBlock q.frontBlock).size :=
      and_sizeMask _ kf hkfs _
    refine ⟨⟨fun hc => (nomatch hres.symm.trans hc), fun hc => absurd hc.1 hA⟩,
      ⟨fun hc => (nomatch hres.symm.trans hc),
       fun hnil => absurd (h3.symm.trans hnil) (List.cons_ne_nil _ _)⟩,
      fun hc => (nomatch hres.symm.trans hc),
      fun _ => ⟨h3, ?_, ?_, ?_⟩⟩
    · have hmem : (try_dequeue q).2.1 ∈ toListO q := by rw [h3]; simp
      exact Option.isSome_iff_exists.mp (hOn.filled _ hmem)
    · rw [try_dequeue_caseA q hA]
      show ((q.setBlock q.frontBlock _).getBlock (q.setBlock q.frontBlock _).frontBlock).front
        = _
      rw [show (q.setBlock q.frontBlock
        { q.getBlock q.frontBlock with
          front := (((q.getBlock q.frontBlock).front + 1) &&& (q.getBlock q.frontBlock).sizeMask),
          data := ((q.getBlock q.frontBlock).data.set (q.getBlock q.frontBlock).front none) }
        ).frontBlock = q.frontBlock from rfl]
      rw [q.getBlock_setBlock_self _ _ hOn.fb_lt]
      exact hbridge
    · rw [try_dequeue_caseA q hA]
      rw [show (q.setBlock q.frontBlock
        { q.getBlock q.frontBlock with
          front := (((q.getBlock q.frontBlock).front + 1) &&& (q.getBlock q.frontBlock).sizeMask),
          data := ((q.getBlock q.frontBlock).data.set (q.getBlock q.frontBlock).front none) }
        ).frontBlock = q.frontBlock from rfl]
      rw [q.getBlock_setBlock_self _ _ hOn.fb_lt]
      show ((q.getBlock q.frontBlock).data.set (q.getBlock q.frontBlock).front none).getD
        (q.getBlock q.frontBlock).front none = none
      rw [getD_set_self _ _ _ _ (by rw [hflen]; exact hffr)]
  · by_cases hB : q.frontBlock ≠ q.tailBlock
    · obtain ⟨hres, -, h3⟩ := dequeue_caseB_step hOn hA hB
      have hnext_fb_lt : (q.getBlock q.frontBlock).next < q.blocks.length := by
        obtain ⟨ys, hps⟩ := List.head?_eq_some_iff.mp hOn.head_ps
        cases ys with
        | nil =>
          exfalso
          have := hOn.last_ps
          rw [hps] at this
          simp at this
          exact hB this
        | cons w ys2 =>
          have hnext_fb : (q.getBlock q.frontBlock).next = w := by
            have hc := hOn.chain
            rw [hps] at hc
            exact (List.chain'_cons.mp hc).1
          rw [hnext_fb]
          refine (hOn.mem_iff w).mp ?_
          rw [hps]
          simp
      obtain ⟨hnlen, ⟨kn, hkn0, hkns⟩, hnfr, hntl⟩ :=
        hOn.wf (q.getBlock q.frontBlock).next hnext_fb_lt
      have hbridge : ((q.getBlock (q.getBlock q.frontBlock).next).front + 1)
            &&& (q.getBlock (q.getBlock q.frontBlock).next).sizeMask
          = ((q.getBlock (q.getBlock q.frontBlock).next).front + 1)
            % (q.getBlock (q.getBlock q.frontBlock).next).size :=
        and_sizeMask _ kn hkns _
      refine ⟨⟨fun hc => (nomatch hres.symm.trans hc), fun hc => absurd hc.2 hB⟩,
        ⟨fun hc => (nomatch hres.symm.trans hc),
         fun hnil => absurd (h3.symm.trans hnil) (List.cons_ne_nil _ _)⟩,
        fun hc => (nomatch hres.symm.trans hc),
        fun _ => ⟨h3, ?_, ?_, ?_⟩⟩
      · have hmem : (try_dequeue q).2.1 ∈ toListO q := by rw [h3]; simp
        exact Option.isSome_iff_exists.mp (hOn.filled _ hmem)
      · rw [try_dequeue_caseB q hA hB]
        show ((q.setBlock (q.getBlock q.frontBlock).next
            { (q.getBlock (q.getBlock q.frontBlock).next) with
              front := (((q.getBlock (q.getBlock q.frontBlock).next).front + 1) &&& (q.getBlock (q.getBlock q.frontBlock).next).sizeMask),
              data := ((q.getBlock (q.getBlock q.frontBlock).next).data.set (q.getBlock (q.getBlock q.frontBlock).next).front none) }).getBlock
          (q.getBlock q.frontBlock).next).front
          = (((q.getBlock (q.getBlock q.frontBlock).next).front + 1) % (q.getBlock (q.getBlock q.frontBlock).next).size)
        rw [q.getBlock_setBlock_self _ _ hnext_fb_lt]
        exact hbridge
      · rw [try_dequeue_caseB q hA hB]
        show ((q.setBlock (q.getBlock q.frontBlock).next
            { (q.getBlock (q.getBlock q.frontBlock).next) with
              front := (((q.getBlock (q.getBlock q.frontBlock).next).front + 1) &&& (q.getBlock (q.getBlock q.frontBlock).next).sizeMask),
              data := ((q.getBlock (q.getBlock q.frontBlock).next).data.set (q.getBlock (q.getBlock q.frontBlock).next).front none) }).getBlock
          (q.getBlock q.frontBlock).next).data.getD ((q.getBlock (q.getBlock q.frontBlock).next).front) none = none
        rw [q.getBlock_setBlock_self _ _ hnext_fb_lt]
        show ((q.getBlock (q.getBlock q.frontBlock).next).data.set (q.getBlock (q.getBlock q.frontBlock).next).front none).getD (q.getBlock (q.getBlock q.frontBlock).next).front none = none
        rw [getD_set_self _ _ _ _ (by rw [hnlen]; exact hnfr)]
    · obtain ⟨hred, hnil⟩ := dequeue_caseC_step hOn hA hB
      rw [hred]
      exact ⟨⟨fun _ => ⟨not_ne_iff.mp hA, not_ne_iff.mp hB⟩, fun _ => rfl⟩,
        ⟨fun _ => hnil, fun _ => rfl⟩,
        fun _ => ⟨rfl, rfl⟩,
        fun hc => by cases hc⟩

/-- Witness for C2 on a one-element queue: the successful dequeue
returns the head of the contents. -/
theorem claim_C2_witness :
    toListO (run (newQueue Nat 1) [Op.enq 5])
      = (try_dequeue (run (newQueue Nat 1) [Op.enq 5])).2.1
        :: toListO (try_dequeue (run (newQueue Nat 1) [Op.enq 5])).2.2 :=
  ((claim_C2 (run (newQueue Nat 1) [Op.enq 5])
    (reachable_run [Op.enq 5] _ (Reachable.init 1 (by decide) (by decide)))).2.2.2
    (by decide)).1

theorem peek_caseA {α : Type} (q : Queue α)
    (hA : (q.getBlock q.frontBlock).front ≠ (q.getBlock q.frontBlock).tail) :
    peek q = ((q.getBlock q.frontBlock).data.getD (q.getBlock q.frontBlock).front none, q) := by
  simp only [peek]
  rw [if_pos hA]

theorem peek_caseB {α : Type} (q : Queue α)
    (hA : ¬ (q.getBlock q.frontBlock).front ≠ (q.getBlock q.frontBlock).tail)
    (hB : q.frontBlock ≠ q.tailBlock) :
    peek q = ((q.getBlock (q.getBlock q.frontBlock).next).data.getD
        (q.getBlock (q.getBlock q.frontBlock).next).front none,
      { q with frontBlock := (q.getBlock q.frontBlock).next }) := by
  simp only [peek]
  rw [if_neg hA, if_pos hB]

theorem peek_caseC {α : Type} (q : Queue α)
    (hA : ¬ (q.getBlock q.frontBlock).front ≠ (q.getBlock q.frontBlock).tail)
    (hB : ¬ q.frontBlock ≠ q.tailBlock) :
    peek q = (none, q) := by
  simp only [peek]
  rw [if_neg hA, if_neg hB]

/-- C9 (spec-modelled `peek`/`pop`): `peek` returns the value at the
consumer's current position, or `none` exactly when the queue is empty,
without consuming anything (the contents are unchanged); when it
returns a value, the next `try_dequeue` (and `pop`) on the resulting
state succeeds and yields exactly that value. -/
theorem claim_C9 {α : Type} (q : Queue α) (h : Reachable q) :
    toListO (peek q).2 = toListO q ∧
    ((peek q).1 = none ↔ toListO q = []) ∧
    ((peek q).1 ≠ none →
      (try_dequeue (peek q).2).1 = true ∧
      (try_dequeue (peek q).2).2.1 = (peek q).1 ∧
      (pop (peek q).2).1 = true ∧
      (pop (peek q).2).2 = (try_dequeue (peek q).2).2.2) := by
  obtain ⟨ps, es, hOn⟩ := reachable_Inv h
  by_cases hA : (q.getBlock q.frontBlock).front ≠ (q.getBlock q.frontBlock).tail
  · rw [peek_caseA q hA]
    obtain ⟨hres, -, h3⟩ := dequeue_caseA_step hOn hA
    have hout : (try_dequeue q).2.1
        = (q.getBlock q.frontBlock).data.getD (q.getBlock q.frontBlock).front none := by
      rw [try_dequeue_caseA q hA]
    refine ⟨rfl, ⟨?_, ?_⟩, ?_⟩
    · intro hc
      exfalso
      have hmem : (try_dequeue q).2.1 ∈ toListO q := by rw [h3]; simp
      have := hOn.filled _ hmem
      have hc2 : (q.getBlock q.frontBlock).data.getD (q.getBlock q.frontBlock).front none = none := hc
      rw [hout, hc2] at this
      cases this
    · intro hnil
      rw [h3] at hnil
      cases hnil
    · intro _hp
      exact ⟨hres, by rw [hout], by rw [pop]; exact hres, rfl⟩
  · by_cases hB : q.frontBlock ≠ q.tailBlock
    · rw [peek_caseB q hA hB]
      have hA2 : (q.getBlock q.frontBlock).front = (q.getBlock q.frontBlock).tail :=
        not_ne_iff.mp hA
      obtain ⟨ys, hps⟩ := List.head?_eq_some_iff.mp hOn.head_ps
      obtain ⟨w, ys2, hys⟩ : ∃ w ys2, ys = w :: ys2 := by
        cases ys with
        | nil =>
          exfalso
          have hl := hOn.last_ps
          rw [hps] at hl
          simp at hl
          exact hB hl
        | cons w ys2 => exact ⟨w, ys2, rfl⟩
      subst hys
      have hps2 : ps = q.frontBlock :: w :: ys2 := hps
      have hnext_fb : (q.getBlock q.frontBlock).next = w := by
        have hc := hOn.chain
        rw [hps2] at hc
        exact (List.chain'_cons.mp hc).1
      have hw_lt : w < q.blocks.length := (hOn.mem_iff w).mp (by rw [hps2]; simp)
      have hnwf : (q.getBlock w).wfb := hOn.wf w hw_lt
      have hnd_ys : (w :: ys2).Nodup := by
        have := hOn.ps_nodup
        rw [hps2] at this
        exact (List.nodup_cons.mp this).2
      have hlast_ys : (w :: ys2).getLast? = some q.tailBlock := by
        have := hOn.last_ps
        rw [hps2, List.getLast?_cons_cons] at this
        exact this
      have hne_nb : (q.getBlock w).front ≠ (q.getBlock w).tail := by
        cases ys2 with
        | nil =>
          have hw_tb : w = q.tailBlock := by simpa using hlast_ys
          have := hOn.tail_ne (by rw [hps2]; simp)
          rw [← hw_tb] at this
          exact this
        | cons z zs =>
          have hfull : (q.getBlock w).isFull := by
            apply hOn.mids 1 w (by omega) (by rw [hps2]; simp)
            rw [hps2]
            rfl
          have hcnt := (Block.isFull_iff_count _ hnwf).mp hfull
          have hsz2 := Block.size_ge_two _ hnwf
          intro hc
          have := (Block.count_eq_zero_iff _ hnwf).mpr hc
          omega
      set q2 : Queue α := { q with frontBlock := (q.getBlock q.frontBlock).next } with hq2
      have hget_all : ∀ i, q2.getBlock i = q.getBlock i := fun i => rfl
      have hchain_ys : List.Chain' (nextRel q2) (w :: ys2) := by
        have hc := hOn.ps_chain
        rw [hps2] at hc
        exact chain'_next_congr q q2 _ (fun i _ => rfl) (List.chain'_cons.mp hc).2
      have hdrop2 : ∀ i ∈ (w :: ys2).dropLast, i ≠ q2.tailBlock := by
        intro i hi
        have hi_ps : i ∈ ps.dropLast := by
          rw [hps2, List.dropLast_cons₂]
          exact List.mem_cons_of_mem _ hi
        exact hOn.dropLast_ne_tail i hi_ps
      have hlen2q : (w :: ys2).length ≤ q2.blocks.length := by
        have := hOn.ps_length_le
        rw [hps2] at this
        show (w :: ys2).length ≤ q.blocks.length
        simp at this ⊢
        omega
      have hpath2 : path q2 = w :: ys2 := by
        refine pathFrom_eq q2 (w :: ys2) q2.blocks.length q2.frontBlock ?_ ?_ hchain_ys
          hdrop2 hlen2q
        · show (w :: ys2).head? = some (q.getBlock q.frontBlock).next
          rw [hnext_fb]
          rfl
        · exact hlast_ys
      have hdeq_nb : (q.getBlock w).contentsO
          = (q.getBlock w).data.getD (q.getBlock w).front none ::
            Block.contentsO { q.getBlock w with
              front := (((q.getBlock w).front + 1) % (q.getBlock w).size),
              data := ((q.getBlock w).data.set (q.getBlock w).front none) } :=
        Block.contentsO_deq _ hnwf hne_nb
      have htoListq : toListO q
          = (q.getBlock w).contentsO ++ ys2.flatMap (fun j => (q.getBlock j).contentsO) := by
        rw [hOn.toListO_eq, hps2]
        simp only [List.flatMap_cons]
        rw [Block.contentsO_empty _ hA2]
        rfl
      have htoList2 : toListO q2 = toListO q := by
        rw [toListO, hpath2, htoListq]
        simp only [List.flatMap_cons]
        rfl
      refine ⟨?_, ⟨?_, ?_⟩, ?_⟩
      · show toListO q2 = toListO q
        exact htoList2
      · intro hc
        exfalso
        have hmem : (q.getBlock w).data.getD (q.getBlock w).front none ∈ toListO q := by
          rw [htoListq, hdeq_nb]
          simp
        have := hOn.filled _ hmem
        rw [hnext_fb] at hc
        have hc2 : (q.getBlock w).data.getD (q.getBlock w).front none = none := hc
        rw [hc2] at this
        cases this
      · intro hnil
        exfalso
        rw [htoListq, hdeq_nb] at hnil
        cases hnil
      · intro _hp
        have hA3 : (q2.getBlock q2.frontBlock).front ≠ (q2.getBlock q2.frontBlock).tail := by
          show (q.getBlock (q.getBlock q.frontBlock).next).front
            ≠ (q.getBlock (q.getBlock q.frontBlock).next).tail
          rw [hnext_fb]
          exact hne_nb
        have hca := try_dequeue_caseA q2 hA3
        show (try_dequeue q2).1 = true
          ∧ (try_dequeue q2).2.1
              = (q.getBlock (q.getBlock q.frontBlock).next).data.getD
                  (q.getBlock (q.getBlock q.frontBlock).next).front none
          ∧ (pop q2).1 = true
          ∧ (pop q2).2 = (try_dequeue q2).2.2
        refine ⟨by rw [hca], ?_, by rw [pop, hca], rfl⟩
        rw [hca]
        show (q2.getBlock q2.frontBlock).data.getD (q2.getBlock q2.frontBlock).front none
          = (q.getBlock (q.getBlock q.frontBlock).next).data.getD
            (q.getBlock (q.getBlock q.frontBlock).next).front none
        rfl
    · rw [peek_caseC q hA hB]
      obtain ⟨-, hnil⟩ := dequeue_caseC_step hOn hA hB
      exact ⟨rfl, ⟨fun _ => hnil, fun _ => rfl⟩, fun hc => absurd rfl hc⟩

/-- Witness for C9 on a one-element queue. -/
theorem claim_C9_witness :
    (try_dequeue (peek (run (newQueue Nat 1) [Op.enq 5])).2).2.1
      = (peek (run (newQueue Nat 1) [Op.enq 5])).1 :=
  ((claim_C9 (run (newQueue Nat 1) [Op.enq 5])
    (reachable_run [Op.enq 5] _ (Reachable.init 1 (by decide) (by decide)))).2.2
    (by decide)).2.1

end RWQ
